import Mathlib

/-!
Verification of the schema-decision engine of
`backend/app/services/schema_engine.py` against its specification.

The Python module manipulates JSON-like values (strings, ints, bools, None,
lists, dicts).  We embed those values as the mutual inductive family
`PVal` / `PList` / `PFields` below.  Design notes on the embedding:

* Python dicts are represented as association lists (`PFields`) in insertion
  order.  Python dicts cannot contain duplicate keys, so loops of the form
  `out[k] = f(v)` over a dict's items are modelled as a structural map over
  the association list; `d[k] = v` on an existing dict is modelled by
  `PFields.set`, which overwrites the first occurrence of `k` in place
  (Python keeps the key's original position) and appends otherwise.
* Dict keys are modelled as strings.  The source's `isinstance(key, str)`
  guards (e.g. in `_normalize_schema` and `_normalize_field`) are therefore
  always satisfied in the model.
* Python ints are `Int` (arbitrary precision in both languages).  Floats do
  not occur in any code path relevant to the claims and are not modelled.
  The model's equality distinguishes `True` from `1` (Python's numeric
  aliasing of booleans is not modelled; no claim depends on it).
* All functions are structurally recursive and executable, so concrete
  counterexamples evaluate inside the kernel via `decide` / `rfl`.
-/

mutual

inductive PVal : Type where
  | s : String → PVal
  | i : Int → PVal
  | b : Bool → PVal
  | null : PVal
  | arr : PList → PVal
  | dict : PFields → PVal
  deriving Repr

inductive PList : Type where
  | nil : PList
  | cons : PVal → PList → PList
  deriving Repr

inductive PFields : Type where
  | nil : PFields
  | cons : String → PVal → PFields → PFields
  deriving Repr

end

-- Structural (Python `==`-style) equality on embedded values.
mutual

def pvalBeq : PVal → PVal → Bool
  | .s a, .s c => a == c
  | .i a, .i c => a == c
  | .b a, .b c => a == c
  | .null, .null => true
  | .arr a, .arr c => plistBeq a c
  | .dict a, .dict c => pfieldsBeq a c
  | _, _ => false

def plistBeq : PList → PList → Bool
  | .nil, .nil => true
  | .cons x xs, .cons y ys => pvalBeq x y && plistBeq xs ys
  | _, _ => false

def pfieldsBeq : PFields → PFields → Bool
  | .nil, .nil => true
  | .cons k v xs, .cons k2 v2 ys => k == k2 && pvalBeq v v2 && pfieldsBeq xs ys
  | _, _ => false

end

/-- Convert a list of key/value pairs into a `PFields` record (for writing
concrete dict literals). -/
def PFields.ofList : List (String × PVal) → PFields
  | [] => .nil
  | (k, v) :: rest => .cons k v (PFields.ofList rest)

/-- Convert a `PFields` record back into a list of key/value pairs (used to
state membership propositions about dicts). -/
def PFields.toList : PFields → List (String × PVal)
  | .nil => []
  | .cons k v rest => (k, v) :: rest.toList

def PList.ofList : List PVal → PList
  | [] => .nil
  | v :: rest => .cons v (PList.ofList rest)

def PList.toList : PList → List PVal
  | .nil => []
  | .cons v rest => v :: rest.toList

/-- Lookup of a key in a dict (`d.get(k)` / `d[k]`; first occurrence,
which is the only occurrence for dicts arising from Python). -/
def PFields.get? : PFields → String → Option PVal
  | .nil, _ => none
  | .cons k0 v0 rest, k => if k0 == k then some v0 else rest.get? k

/-- Lookup with a default (`d.get(k, default)`). -/
def PFields.getD (d : PFields) (k : String) (dflt : PVal) : PVal :=
  (d.get? k).getD dflt

/-- Key membership test (`k in d`). -/
def PFields.hasKey : PFields → String → Bool
  | .nil, _ => false
  | .cons k0 _ rest, k => k0 == k || rest.hasKey k

/-- Python dict assignment `d[k] = v`: overwrite in place if the key exists
(keeping its position), append at the end otherwise. -/
def PFields.set : PFields → String → PVal → PFields
  | .nil, k, v => .cons k v .nil
  | .cons k0 v0 rest, k, v =>
      if k0 == k then .cons k0 v rest else .cons k0 v0 (rest.set k v)

/-- Python `d.pop(k, None)` / key-filtering comprehension: remove the key.
(Keys are unique in dicts arising from Python, so removing the first
occurrence is exact.) -/
def PFields.remove : PFields → String → PFields
  | .nil, _ => .nil
  | .cons k0 v0 rest, k =>
      if k0 == k then rest else .cons k0 v0 (rest.remove k)

/-- Python `d.setdefault(k, v)`. -/
def PFields.setdefault (d : PFields) (k : String) (v : PVal) : PFields :=
  if d.hasKey k then d else d.set k v

/-- Map a function over all values of a dict (an in-place mutation loop over
`d.items()` in the source). -/
def PFields.mapVals (f : PVal → PVal) : PFields → PFields
  | .nil => .nil
  | .cons k v rest => .cons k (f v) (rest.mapVals f)

def PFields.keys : PFields → List String
  | .nil => []
  | .cons k _ rest => k :: rest.keys

def PFields.isEmpty : PFields → Bool
  | .nil => true
  | .cons _ _ _ => false

def PList.isEmpty : PList → Bool
  | .nil => true
  | .cons _ _ => false

def PList.append : PList → PVal → PList
  | .nil, v => .cons v .nil
  | .cons x rest, v => .cons x (rest.append v)

/-- Value membership test for Python lists (`v in xs`). -/
def PList.contains (l : PList) (v : PVal) : Bool :=
  match l with
  | .nil => false
  | .cons x rest => pvalBeq x v || rest.contains v

/-- Filter a Python list by a predicate (a list comprehension). -/
def PList.filter (p : PVal → Bool) : PList → PList
  | .nil => .nil
  | .cons x rest => if p x then .cons x (PList.filter p rest) else PList.filter p rest

/-!
String primitives.

The Lean core `String` functions that operate through byte positions
(`String.toLower`, `String.trim`, `String.split`, ...) are not used because
they do not reduce inside the kernel; the model instead works on the
underlying character list.  Python semantics notes: `str.lower`/`upper` on
the ASCII identifiers occurring here agree with `Char.toLower`/`toUpper`;
Python `\s` and `str.strip()` whitespace agrees with `Char.isWhitespace`
for the ASCII whitespace relevant here; Python string comparison is by
code point, as is `charLe` below.
-/

def chars (t : String) : List Char := t.data

def ofChars (l : List Char) : String := String.mk l

def strLower (t : String) : String := ofChars ((chars t).map Char.toLower)

def trimChars (l : List Char) : List Char :=
  ((l.dropWhile Char.isWhitespace).reverse.dropWhile Char.isWhitespace).reverse

def strTrim (t : String) : String := ofChars (trimChars (chars t))

def strLen (t : String) : Nat := (chars t).length

def strStartsWith (t p : String) : Bool := (chars p).isPrefixOf (chars t)

def strEndsWith (t p : String) : Bool := (chars p).reverse.isPrefixOf (chars t).reverse

def isSubChars (needle hay : List Char) : Bool :=
  match hay with
  | [] => needle.isEmpty
  | _ :: rest => needle.isPrefixOf hay || isSubChars needle rest

/-- Python substring containment `needle in hay`. -/
def strContains (hay needle : String) : Bool := isSubChars (chars needle) (chars hay)

def charLe (a c : Char) : Bool := a.val ≤ c.val

def strLeChars : List Char → List Char → Bool
  | [], _ => true
  | _ :: _, [] => false
  | a :: as, c :: cs => if a = c then strLeChars as cs else charLe a c

/-- Code-point lexicographic `≤` on strings (Python string ordering). -/
def strLe (a c : String) : Bool := strLeChars (chars a) (chars c)

/-- Insert into a sorted list, before the first element that is `≥`
(preserves the relative order of equal elements when used via `stableSort`). -/
def insSorted {α : Type} (le : α → α → Bool) (x : α) : List α → List α
  | [] => [x]
  | y :: ys => if le x y then x :: y :: ys else y :: insSorted le x ys

/-- Stable sort (Python's `sorted`). -/
def stableSort {α : Type} (le : α → α → Bool) (l : List α) : List α :=
  l.foldr (insSorted le) []

/-- Split a character list into maximal runs of characters not satisfying the
separator predicate (runs may be empty only between two adjacent separators;
empty runs are dropped). -/
def splitDrop (sep : Char → Bool) (l : List Char) : List (List Char) :=
  go l []
where
  go : List Char → List Char → List (List Char)
    | [], acc => if acc.isEmpty then [] else [acc.reverse]
    | c :: rest, acc =>
        if sep c then
          if acc.isEmpty then go rest [] else acc.reverse :: go rest []
        else go rest (c :: acc)

/-- Python `str.split()` (split on whitespace runs, dropping empties). -/
def splitWs (t : String) : List String :=
  (splitDrop Char.isWhitespace (chars t)).map ofChars

/-- Python `sep.join(parts)`. -/
def joinSep (sep : String) : List String → String
  | [] => ""
  | [x] => x
  | x :: rest => x ++ sep ++ joinSep sep rest

/-- Worker for `splitOnSub`; the `Nat` fuel (initialised to more than the
input length) keeps the recursion structural so that it reduces in the
kernel.  The separator is non-empty at every use site, so at least one
character is consumed per step and the fuel never runs out. -/
def splitOnSubGo (sepc : List Char) : Nat → List Char → List Char → List String
  | 0, l, acc => [ofChars (acc.reverse ++ l)]
  | _ + 1, [], acc => [ofChars acc.reverse]
  | fuel + 1, c :: rest, acc =>
      if sepc.isPrefixOf (c :: rest) then
        ofChars acc.reverse :: splitOnSubGo sepc fuel ((c :: rest).drop sepc.length) []
      else splitOnSubGo sepc fuel rest (c :: acc)

/-- Split a string on every occurrence of a (non-empty) literal separator,
Python `str.split(sep)`. -/
def splitOnSub (sep : String) (t : String) : List String :=
  splitOnSubGo (chars sep) ((chars t).length + 1) (chars t) []

/-- Split a string at every character satisfying the predicate, keeping empty
pieces (Python `re.split` on a single-character class). -/
def splitKeep (sep : Char → Bool) (t : String) : List String :=
  go (chars t) []
where
  go : List Char → List Char → List String
    | [], acc => [ofChars acc.reverse]
    | c :: rest, acc => if sep c then ofChars acc.reverse :: go rest [] else go rest (c :: acc)

/-- Alias table of `_normalize_type` (lines 1317-1334). -/
def TYPE_ALIASES : List (String × String) :=
  [("string", "string"), ("text", "string"), ("str", "string"),
   ("number", "number"), ("int", "number"), ("integer", "number"),
   ("float", "number"), ("double", "number"),
   ("date", "date"), ("datetime", "date"),
   ("bool", "boolean"), ("boolean", "boolean"),
   ("object", "object"), ("array", "array"),
   ("objectid", "ObjectId"), ("object id", "ObjectId")]

/-- First-match lookup in an association list (`dict.get`). -/
def aliasLookup {β : Type} (k : String) : List (String × β) → Option β
  | [] => none
  | (k0, v0) :: rest => if k0 == k then some v0 else aliasLookup k rest

/-- Embedding of `_normalize_type` (lines 1314-1340): canonicalize a field
type.  Strings are stripped, lowercased and looked up in the alias table
(unrecognized strings pass through unchanged); booleans map to `boolean`,
ints to `number` (Python checks `bool` before `int`), anything else to
`string`.  Python floats also map to `number`; they are not representable in
the model (see the header note). -/
def normalize_type : PVal → PVal
  | .s value =>
      (match aliasLookup (strLower (strTrim value)) TYPE_ALIASES with
       | some canon => .s canon
       | none => .s value)
  | .b _ => .s "boolean"
  | .i _ => .s "number"
  | .null => .s "string"
  | .arr _ => .s "string"
  | .dict _ => .s "string"

mutual

/-- Embedding of `_normalize_field` (lines 1343-1355): recurse through dicts,
normalize a non-empty list using only its first element, normalize leaves
with `normalize_type` (the source's catch-all `return _normalize_type(value)`
is spelled out per leaf constructor).  The source skips non-string dict keys;
keys are strings in the model. -/
def normalize_field : PVal → PVal
  | .dict l => .dict (normalize_field_fields l)
  | .arr .nil => .arr .nil
  | .arr (.cons x _) => .arr (.cons (normalize_field x) .nil)
  | .s t => normalize_type (.s t)
  | .i n => normalize_type (.i n)
  | .b x => normalize_type (.b x)
  | .null => normalize_type .null

/-- The dict-recursion loop of `_normalize_field`. -/
def normalize_field_fields : PFields → PFields
  | .nil => .nil
  | .cons k v rest => .cons k (normalize_field v) (normalize_field_fields rest)

end

/-- Normalization of one collection's value inside `_normalize_schema`
(lines 1362-1371): a non-dict value becomes `{"_id": "ObjectId"}`; a dict is
normalized field-wise and `"_id": "ObjectId"` is assigned if absent. -/
def normalize_schema_entry (fields : PVal) : PFields :=
  match fields with
  | .dict fl =>
      if (normalize_field_fields fl).hasKey "_id" then normalize_field_fields fl
      else (normalize_field_fields fl).set "_id" (.s "ObjectId")
  | _ => .cons "_id" (.s "ObjectId") .nil

/-- The collection loop of `_normalize_schema` (non-string collection keys
are skipped in the source; keys are strings in the model). -/
def normalize_schema_fields : PFields → PFields
  | .nil => .nil
  | .cons coll fields rest =>
      .cons coll (.dict (normalize_schema_entry fields)) (normalize_schema_fields rest)

/-- Embedding of `_normalize_schema` (lines 1358-1372). -/
def normalize_schema : PVal → PFields
  | .dict l => normalize_schema_fields l
  | _ => .nil

-- Serialization mirroring Python `json.dumps(x, sort_keys=True)` with the
-- default separators, used only as the sort key for canonicalizing lists.
-- String escaping is not modelled (the strings occurring in schemas are
-- plain identifiers).
mutual

def jsonDumps : PVal → String
  | .s t => "\"" ++ t ++ "\""
  | .i n => toString n
  | .b true => "true"
  | .b false => "false"
  | .null => "null"
  | .arr l => "[" ++ joinSep ", " (jsonDumpsList l) ++ "]"
  | .dict l =>
      "\x7b" ++
        joinSep ", "
          ((stableSort (fun a b => strLe a.1 b.1) (jsonDumpsFields l)).map
            (fun p => "\"" ++ p.1 ++ "\": " ++ p.2)) ++
        "\x7d"

def jsonDumpsList : PList → List String
  | .nil => []
  | .cons v rest => jsonDumps v :: jsonDumpsList rest

def jsonDumpsFields : PFields → List (String × String)
  | .nil => []
  | .cons k v rest => (k, jsonDumps v) :: jsonDumpsFields rest

end

-- Embedding of `_deep_normalize` (lines 1374-1382): recursively sort dict
-- entries by key and list elements by their canonical JSON serialization
-- (Python's `sorted` is stable, as is `stableSort`).
mutual

def deep_normalize : PVal → PVal
  | .dict l =>
      .dict (PFields.ofList (stableSort (fun a b => strLe a.1 b.1) (deep_normalize_fields l)))
  | .arr l =>
      .arr (PList.ofList (stableSort (fun a b => strLe (jsonDumps a) (jsonDumps b))
        (deep_normalize_list l)))
  | v => v

def deep_normalize_fields : PFields → List (String × PVal)
  | .nil => []
  | .cons k v rest => (k, deep_normalize v) :: deep_normalize_fields rest

def deep_normalize_list : PList → List PVal
  | .nil => []
  | .cons v rest => deep_normalize v :: deep_normalize_list rest

end

/-- Embedding of `_schemas_equal` (lines 1385-1386). -/
def schemas_equal (a b : PFields) : Bool :=
  pvalBeq (deep_normalize (.dict a)) (deep_normalize (.dict b))

-- The recursive `walk` of `_extract_paths` (lines 1177-1184).
mutual

def walkPaths : PVal → String → List String
  | .dict l, pre => walkPathsFields l pre
  | .arr (.cons x _), pre => walkPaths x (pre ++ "[]")
  | _, _ => []

def walkPathsFields : PFields → String → List String
  | .nil, _ => []
  | .cons k v rest, pre =>
      (if pre == "" then k else pre ++ "." ++ k) ::
        (walkPaths v (if pre == "" then k else pre ++ "." ++ k) ++ walkPathsFields rest pre)

end

/-- Embedding of `_extract_paths` (lines 1173-1188): flatten a schema into
sorted dotted paths, array element paths marked with a `[]` suffix segment. -/
def extract_paths (schema : PVal) : List String :=
  match schema with
  | .dict l => stableSort strLe (walkPathsFields l "")
  | _ => []

/-- Keep-first-occurrence deduplication (the effect of Python's `set`
construction on the path lists before the sorted difference). -/
def dedupStrGo : List String → List String → List String
  | [], _ => []
  | x :: rest, seen =>
      if seen.contains x then dedupStrGo rest seen else x :: dedupStrGo rest (x :: seen)

def dedupStr (l : List String) : List String := dedupStrGo l []

structure SchemaDiff where
  added : List String
  removed : List String
  deriving Repr, DecidableEq

/-- Embedding of `_diff_schema` (lines 1191-1198): the sorted set differences
of the two path sets. -/
def diff_schema (old_schema new_schema : PFields) : SchemaDiff :=
  let old_paths := extract_paths (.dict old_schema)
  let new_paths := extract_paths (.dict new_schema)
  { added := stableSort strLe (dedupStr (new_paths.filter (fun p => !(old_paths.contains p))))
  , removed := stableSort strLe (dedupStr (old_paths.filter (fun p => !(new_paths.contains p)))) }

-- Embedding of `_count_fields` (lines 1260-1272): count keys at every
-- nesting level (a non-empty list counts its first element's fields).
mutual

def count_fields : PVal → Nat
  | .dict l => count_fields_fields l
  | .arr .nil => 0
  | .arr (.cons x _) => count_fields x
  | _ => 0

def count_fields_fields : PFields → Nat
  | .nil => 0
  | .cons _ v rest => 1 + count_fields v + count_fields_fields rest

end

-- Embedding of `_max_depth` (lines 1275-1285): dicts and arrays add one
-- depth level; an empty array still adds one; a maximum is taken over all
-- dict values and all array items.
mutual

def max_depth : PVal → Nat → Nat
  | .dict .nil, depth => depth
  | .dict (.cons k v rest), depth => max_depth_fields (.cons k v rest) (depth + 1)
  | .arr .nil, depth => depth + 1
  | .arr (.cons x rest), depth => max_depth_list (.cons x rest) (depth + 1)
  | _, depth => depth

def max_depth_fields : PFields → Nat → Nat
  | .nil, _ => 0
  | .cons _ v .nil, d => max_depth v d
  | .cons _ v (.cons k2 v2 rest), d => max (max_depth v d) (max_depth_fields (.cons k2 v2 rest) d)

def max_depth_list : PList → Nat → Nat
  | .nil, _ => 0
  | .cons x .nil, d => max_depth x d
  | .cons x (.cons y rest), d => max (max_depth x d) (max_depth_list (.cons y rest) d)

end

structure Metrics where
  collections : Nat
  fields : Nat
  depth : Nat
  deriving Repr, DecidableEq

def PFields.length : PFields → Nat
  | .nil => 0
  | .cons _ _ rest => 1 + rest.length

/-- Embedding of `_schema_metrics` (lines 1288-1293). -/
def schema_metrics (schema : PFields) : Metrics :=
  { collections := schema.length
  , fields := count_fields (.dict schema)
  , depth := max_depth (.dict schema) 0 }

/-- Embedding of `_validate_summary` (lines 1212-1229): reject non-strings,
strings shorter than 30 characters once stripped, boilerplate phrases, and
a "no schema changes" opener when the schema did change. -/
def validate_summary (summary : PVal) (schema_changed : Bool) : Bool :=
  match summary with
  | .s st =>
      if strLen (strTrim st) < 30 then false
      else
        if strContains (strLower st) "applied refinement" ||
           strContains (strLower st) "implemented " ||
           strContains (strLower st) "requested changes" then false
        else if schema_changed && strStartsWith (strLower st) "no schema changes" then false
        else true
  | _ => false

/-- Embedding of `_generate_summary` (lines 1232-1257): the deterministic
replacement summary built from before/after metrics and the path diff. -/
def generate_summary (old_metrics new_metrics : Metrics) (diff : SchemaDiff)
    (schema_changed : Bool) : String :=
  if !schema_changed then
    "No schema changes made - structure remains " ++ toString new_metrics.collections ++
      " collections and " ++ toString new_metrics.fields ++ " fields."
  else
    let s0 := "Successfully updated schema: collections " ++ toString old_metrics.collections ++
      "→" ++ toString new_metrics.collections ++ ", fields " ++ toString old_metrics.fields ++
      "→" ++ toString new_metrics.fields ++ ", depth " ++ toString old_metrics.depth ++ "→" ++
      toString new_metrics.depth ++ "."
    let s1 := if !diff.added.isEmpty then
        s0 ++ " Added paths: " ++ joinSep ", " (diff.added.take 3) ++ "." else s0
    if !diff.removed.isEmpty then
      s1 ++ " Removed paths: " ++ joinSep ", " (diff.removed.take 3) ++ "." else s1

/-- Worker for the digits of a Python `int(str)` conversion. -/
def digitsToNatGo : List Char → Nat → Option Nat
  | [], acc => some acc
  | c :: rest, acc =>
      if c.isDigit then digitsToNatGo rest (acc * 10 + (c.toNat - '0'.toNat)) else none

/-- Python `int(s)` on a string: surrounding whitespace stripped, optional
sign, at least one decimal digit; anything else raises `ValueError`
(modelled as `none`).  Underscore digit separators accepted by Python are
not modelled. -/
def pyStrToInt (t : String) : Option Int :=
  match trimChars (chars t) with
  | [] => none
  | '+' :: rest => if rest.isEmpty then none else (digitsToNatGo rest 0).map Int.ofNat
  | '-' :: rest => if rest.isEmpty then none else (digitsToNatGo rest 0).map (fun n => -(Int.ofNat n))
  | l => (digitsToNatGo l 0).map Int.ofNat

/-- Python `int(x)` as used in `_build_schema_version`: ints pass through,
booleans become 0/1, strings are parsed, everything else (`None`, dicts,
lists) raises `TypeError` (modelled as `none`).  Floats are not modelled. -/
def pyToInt : PVal → Option Int
  | .i n => some n
  | .b true => some 1
  | .b false => some 0
  | .s t => pyStrToInt t
  | _ => none

/-- Version metadata computed by `_build_schema_version`.  The source also
returns a fresh `schemaVersionId` (`uuid.uuid4()`) and a `createdAt`
timestamp; both are non-deterministic side effects not constrained by any
claim and are omitted from the model. -/
structure VersionInfo where
  schemaVersion : Int
  previousVersionId : PVal
  deriving Repr

/-- Embedding of `_build_schema_version` (lines 1296-1311): with no parent
(`generate_schema`), version 1 and a null `previousVersionId`; with a parent
dict, `previousVersionId` is the parent's `schemaVersionId` (null when
absent) and the version is `int(parent.get("schemaVersion", 0)) + 1`,
falling back to 1 when that conversion raises. -/
def build_schema_version : Option PFields → VersionInfo
  | none => { schemaVersion := 1, previousVersionId := .null }
  | some base =>
      { schemaVersion :=
          match pyToInt (base.getD "schemaVersion" (.i 0)) with
          | some n => n + 1
          | none => 1
      , previousVersionId := base.getD "schemaVersionId" .null }

/-!
Relationship normalizer: `_looks_like_relation`, `_parse_embed_reference`,
`_normalize_relationships` (lines 1389-1434).
-/

/-- Embedding of `_parse_embed_reference` (lines 1397-1404). -/
def parse_embed_reference (v : PVal) : Option String :=
  match v with
  | .s t =>
      if strContains (strLower t) "embed" then some "embed"
      else if strContains (strLower t) "reference" then some "reference"
      else none
  | _ => none

/-- Token list of `_looks_like_relation` (lines 1389-1394). -/
def RELATION_TOKENS : List String :=
  ["->", " has ", " belongs ", " contains ", " includes ", " enrolls ", " borrows ",
   " takes ", " pays ", " receives ", " teaches ", " owns ", " uses ", " places ",
   " converts "]

def looks_like_relation (t : String) : Bool :=
  RELATION_TOKENS.any (fun tok => strContains (strLower t) tok)

/-- The mapping-shaped branch of `_normalize_relationships` (lines
1411-1418): parse each value, fall back to the same label's decision entry,
default `reference`. -/
def normalize_relationships_dict (decisions : PFields) : PFields → List (String × String)
  | .nil => []
  | .cons rel choice rest =>
      (rel, (((parse_embed_reference choice).orElse
          (fun _ => parse_embed_reference (decisions.getD rel .null))).getD "reference"))
        :: normalize_relationships_dict decisions rest

/-- The list-shaped branch of `_normalize_relationships` (lines 1419-1424):
non-string labels are skipped; choices resolve through `decisions` with
default `reference`. -/
def normalize_relationships_list (decisions : PFields) : PList → List (String × String)
  | .nil => []
  | .cons (.s rel) rest =>
      (rel, (parse_embed_reference (decisions.getD rel .null)).getD "reference")
        :: normalize_relationships_list decisions rest
  | .cons _ rest => normalize_relationships_list decisions rest

/-- The empty-result fallback of `_normalize_relationships` (lines
1426-1432): keep only decision entries whose key looks like a relation and
whose value parses to an embed/reference token. -/
def normalize_relationships_fallback : PFields → List (String × String)
  | .nil => []
  | .cons rel choice rest =>
      if looks_like_relation rel then
        match parse_embed_reference choice with
        | some c => (rel, c) :: normalize_relationships_fallback rest
        | none => normalize_relationships_fallback rest
      else normalize_relationships_fallback rest

/-- Coercion used in the source idiom
`decisions_obj if isinstance(decisions_obj, dict) else {}`. -/
def pyAsDict : PVal → PFields
  | .dict d => d
  | _ => .nil

/-- Shape dispatch of `_normalize_relationships` (lines 1411-1424): mapping
and list inputs are normalized entry-wise; any other shape yields nothing. -/
def normalize_relationships_main (decisions : PFields) : PVal → List (String × String)
  | .dict items => normalize_relationships_dict decisions items
  | .arr items => normalize_relationships_list decisions items
  | _ => []

/-- Final step of `_normalize_relationships` (lines 1426-1434): if the
normalized result is empty, fall back to relation-looking `decisions`
entries. -/
def normalize_relationships_pick (decisions : PFields)
    (normalized : List (String × String)) : List (String × String) :=
  if normalized.isEmpty then normalize_relationships_fallback decisions else normalized

/-- Embedding of `_normalize_relationships` (lines 1407-1434).  Note that
the empty-result fallback reads only the `decisions` mapping: the schema is
not an input of this function. -/
def normalize_relationships (relationships_obj decisions_obj : PVal) :
    List (String × String) :=
  normalize_relationships_pick (pyAsDict decisions_obj)
    (normalize_relationships_main (pyAsDict decisions_obj) relationships_obj)

/-!
Decision engine: `CARDINALITY_HINTS`, `TEMPORAL_KEYWORDS`,
`detect_cardinality`, `detect_temporal_data`, `estimate_doc_growth`,
`simulate_query_cost`, `advanced_decision_engine` (lines 26-131).
-/

def CARDINALITY_HINTS : List (String × List String) :=
  [("one_to_one", ["profile", "detail", "setting"]),
   ("one_to_few", ["address", "phone", "payment method"]),
   ("one_to_many", ["order", "exam", "attendance", "appointment", "log"]),
   ("many_to_many", ["tag", "course", "store", "product", "student"])]

def TEMPORAL_KEYWORDS : List String :=
  ["history", "log", "activity", "attendance", "transaction", "event", "audit"]

/-- First cardinality class whose hint list matches the (lowered) text, in
the insertion order of `CARDINALITY_HINTS`. -/
def findCardinality (text : String) : List (String × List String) → Option String
  | [] => none
  | (card, hints) :: rest =>
      if hints.any (fun h => strContains text h) then some card
      else findCardinality text rest

/-- Embedding of `detect_cardinality` (lines 44-51).  The `relation`
parameter is unused, exactly as in the source. -/
def detect_cardinality (text _relation : String) : String :=
  match findCardinality (strLower text) CARDINALITY_HINTS with
  | some card => card
  | none =>
      if strContains (strLower text) "many" || strContains (strLower text) "multiple" then
        "many_to_many"
      else "one_to_many"

/-- Embedding of `detect_temporal_data` (lines 54-55). -/
def detect_temporal_data (relation : String) : Bool :=
  TEMPORAL_KEYWORDS.any (fun w => strContains (strLower relation) w)

/-- Embedding of `estimate_doc_growth` (lines 58-63). -/
def estimate_doc_growth (relation : String) : String :=
  if strContains (strLower relation) "history" then "unbounded"
  else if strContains (strLower relation) "many" then "large_array"
  else "bounded"

structure QueryCost where
  read_cost : Nat
  write_cost : Nat
  join_cost : Nat
  deriving Repr, DecidableEq

/-- Embedding of `simulate_query_cost` (lines 66-70).  The source indexes a
two-entry dict with the choice (any other key would raise `KeyError`); every
call site passes exactly `embed` or `reference`. -/
def simulate_query_cost (choice : String) : QueryCost :=
  if choice == "embed" then ⟨1, 4, 0⟩ else ⟨3, 1, 2⟩

/-- The per-relationship embed/reference decision of
`advanced_decision_engine` (lines 119-126): temporal labels reference;
one-to-one/one-to-few cardinality embeds; many-to-many references;
the remaining (one-to-many default) case references. -/
def adeChoice (text rel : String) : String :=
  if detect_temporal_data rel then "reference"
  else if detect_cardinality text rel == "one_to_one" ||
      detect_cardinality text rel == "one_to_few" then "embed"
  else if detect_cardinality text rel == "many_to_many" then "reference"
  else "reference"

structure DecisionEngineOut where
  decisions : List (String × String)
  growth_map : List (String × String)
  query_costs : List (String × QueryCost)
  deriving Repr

/-- Embedding of `advanced_decision_engine` (lines 107-131).  The source
fills three dicts in one loop over the relationship labels; the model maps
over the labels once per output (duplicate labels would overwrite a dict
entry with the identical recomputed value, so first-match lookup agrees
with the Python dict). -/
def advanced_decision_engine (text : String) (relationships : List String) :
    DecisionEngineOut :=
  { decisions := relationships.map (fun rel => (rel, adeChoice text rel))
  , growth_map := relationships.map (fun rel => (rel, estimate_doc_growth rel))
  , query_costs := relationships.map (fun rel => (rel, simulate_query_cost (adeChoice text rel))) }

def strDropRight (t : String) (n : Nat) : String :=
  ofChars (((chars t).reverse.drop n).reverse)

/-- Embedding of `_singularize` (lines 317-324). -/
def singularize (term : String) : String :=
  if strEndsWith term "ies" = true ∧ 3 < strLen term then strDropRight term 3 ++ "y"
  else if strEndsWith term "ses" = true ∧ 3 < strLen term then strDropRight term 2
  else if strEndsWith term "s" = true ∧ strEndsWith term "ss" = false ∧ 3 < strLen term then
    strDropRight term 1
  else term

/-- Embedding of `_pluralize` (lines 327-332). -/
def pluralize (term : String) : String :=
  if strEndsWith term "y" = true ∧ 2 < strLen term then strDropRight term 1 ++ "ies"
  else if strEndsWith term "s" then term ++ "es"
  else term ++ "s"

/-- Python `str.capitalize()`: first character uppercased, the rest
lowercased. -/
def capitalizeWord (w : String) : String :=
  match chars w with
  | [] => w
  | c :: rest => ofChars (c.toUpper :: rest.map Char.toLower)

/-- Embedding of `_title_case` (lines 335-336). -/
def title_case (term : String) : String :=
  joinSep "" ((splitWs term).map capitalizeWord)

def ARTICLE_TOKENS : List String := ["a", "an", "the"]

def GENERIC_SUFFIXES : List String := ["app", "apps", "application", "system", "platform"]

/-- Embedding of `_normalize_term` (lines 339-348): non-letters become
spaces, the result is stripped and lowercased, each word singularized,
leading articles dropped, and a trailing generic suffix dropped when more
than one word remains. -/
def normalize_term (term : String) : String :=
  let cleaned := ofChars ((chars term).map (fun c => if c.isAlpha || c.isWhitespace then c else ' '))
  let parts := (splitWs (strLower (strTrim cleaned))).map singularize
  let parts2 := parts.dropWhile (fun p => ARTICLE_TOKENS.contains p)
  let parts3 :=
    if 1 < parts2.length ∧ GENERIC_SUFFIXES.contains (parts2.getLastD "") = true then
      parts2.dropLast
    else parts2
  joinSep " " parts3

/-- Embedding of `_to_camel` (lines 945-949). -/
def to_camel (term : String) : String :=
  match (splitDrop (fun c => c.isWhitespace || c = '_') (chars term)).map ofChars with
  | [] => term
  | p :: rest => strLower p ++ joinSep "" (rest.map capitalizeWord)

/-- Embedding of `_collection_name` (lines 633-634). -/
def collection_name (entity : String) : String := pluralize (strLower entity)

/-- Embedding of `_resolve_collection` (lines 952-964).  The source iterates
a three-element `set` of candidates, whose iteration order Python leaves
unspecified; the model fixes the order normalized/pluralized/singularized.
Every use in the claims below resolves at most one candidate, so the order
is immaterial there. -/
def resolve_collection (schema : PFields) (name : String) : Option String :=
  let normalized := normalize_term name
  if normalized = "" then none
  else (dedupStr [normalized, pluralize normalized, singularize normalized]).find?
    (fun c => schema.hasKey c)

/-- The `ENTITY_TEMPLATES` table (lines 134-188). -/
def ENTITY_TEMPLATES : List (String × List String) :=
  [("User", ["name", "email", "createdAt"]),
   ("Order", ["total", "status", "createdAt"]),
   ("Product", ["name", "price", "category"]),
   ("Invoice", ["total", "dueDate", "status"]),
   ("School", ["name", "address", "establishedAt"]),
   ("Student", ["firstName", "lastName", "email", "gradeLevel", "enrollmentDate"]),
   ("Teacher", ["name", "email", "department", "hiredAt"]),
   ("Class", ["name", "section", "room", "schedule"]),
   ("Course", ["title", "code", "credits"]),
   ("Subject", ["name", "code"]),
   ("Grade", ["value", "type", "recordedAt"]),
   ("Attendance", ["date", "status"]),
   ("Exam", ["name", "date", "score"]),
   ("Question", ["text", "type", "points"]),
   ("Result", ["score", "grade", "recordedAt"]),
   ("Parent", ["name", "phone", "email"]),
   ("Fee", ["amount", "dueDate", "status"]),
   ("Payment", ["amount", "method", "paidAt"]),
   ("Library", ["name", "location"]),
   ("Book", ["title", "author", "isbn"]),
   ("Department", ["name", "head"]),
   ("Staff", ["name", "role"]),
   ("Schedule", ["dayOfWeek", "startTime", "endTime"]),
   ("Bus", ["route", "capacity"]),
   ("Hostel", ["name", "capacity"]),
   ("Customer", ["name", "email", "phone", "createdAt"]),
   ("Cart", ["status", "updatedAt"]),
   ("PaymentMethod", ["type", "provider", "last4"]),
   ("Shipment", ["status", "carrier", "trackingNumber"]),
   ("Address", ["line1", "city", "state", "postalCode"]),
   ("Inventory", ["sku", "quantity", "location"]),
   ("Patient", ["name", "dob", "phone", "email"]),
   ("Doctor", ["name", "specialty", "email"]),
   ("Appointment", ["scheduledAt", "status", "reason"]),
   ("Prescription", ["medication", "dosage", "issuedAt"]),
   ("MedicalRecord", ["summary", "createdAt"]),
   ("Employee", ["name", "email", "title", "hiredAt"]),
   ("Role", ["name", "level"]),
   ("Payroll", ["period", "gross", "net"]),
   ("Leave", ["type", "startDate", "endDate"]),
   ("Lead", ["name", "source", "status"]),
   ("Deal", ["name", "stage", "value"]),
   ("Account", ["name", "industry", "owner"]),
   ("Contact", ["name", "email", "phone"]),
   ("Pipeline", ["name", "stages"]),
   ("Warehouse", ["name", "location", "capacity"]),
   ("Vehicle", ["plate", "type", "capacity"]),
   ("Route", ["name", "distance"]),
   ("Delivery", ["status", "eta", "deliveredAt"]),
   ("Ledger", ["name", "type"]),
   ("Transaction", ["amount", "type", "createdAt"]),
   ("Card", ["brand", "last4", "expiry"]),
   ("Budget", ["name", "period", "amount"])]

/-- `ENTITY_TEMPLATES.get(entity, ["name", "createdAt"])`. -/
def entityTemplate (e : String) : List String :=
  (aliasLookup e ENTITY_TEMPLATES).getD ["name", "createdAt"]

/-- Python `schema[collection].setdefault(field, "string")` looped over a
list of field names; non-string field names would become non-string dict
keys in Python and are not representable (see the header note). -/
def setdefaultAll (fl : PFields) : PList → PFields
  | .nil => fl
  | .cons (.s f) rest => setdefaultAll (fl.setdefault f (.s "string")) rest
  | .cons _ rest => setdefaultAll fl rest

/-- Result record of `_ensure_collection`, which mutates the schema, entity
list and attribute table and returns the collection name. -/
structure EnsureOut where
  schema : PFields
  entities : PList
  attributes : PFields
  collection : String

/-- Embedding of `_ensure_collection` (lines 967-979).  If the collection
value pre-exists and is not a dict, the `setdefault` loop in the source
raises `AttributeError`; the model leaves the schema unchanged in that case
(the claims below only use this function under well-formedness hypotheses
or on inputs where the case does not arise). -/
def ensure_collection (schema : PFields) (entities : PList) (attributes : PFields)
    (name : String) : EnsureOut :=
  let normalized := normalize_term name
  let collection := pluralize normalized
  let schema1 := if schema.hasKey collection then schema
    else schema.set collection (.dict (.cons "_id" (.s "ObjectId") .nil))
  let entity := title_case normalized
  let entities1 := if entities.contains (.s entity) then entities else entities.append (.s entity)
  let attributes1 := if attributes.hasKey entity then attributes
    else attributes.set entity (.arr (PList.ofList ((entityTemplate entity).map PVal.s)))
  let fieldsList := match attributes1.getD entity (.arr .nil) with
    | .arr l => l
    | _ => PList.nil
  let schema2 := match schema1.get? collection with
    | some (.dict fl) => schema1.set collection (.dict (setdefaultAll fl fieldsList))
    | _ => schema1
  { schema := schema2, entities := entities1, attributes := attributes1
  , collection := collection }

/-!
Fallback schema synthesizer: `_apply_relation` (lines 637-668) and
`_schema` (lines 671-697), plus `_warnings` (lines 715-723).
-/

def POSSESSION_VERBS : List String :=
  ["has", "contains", "includes", "enrolls", "borrows", "takes", "pays", "receives"]

def SUBORDINATION_VERBS : List String := ["belongs", "assigned", "reports", "guardians"]

/-- Field assignment `schema[coll][field] = v` after the source has already
checked `coll in schema`; collection values built by `_schema` are always
dicts, so the non-dict case (a `TypeError` in Python) is unreachable there
and the model returns the schema unchanged. -/
def setFieldTotal (schema : PFields) (coll field : String) (v : PVal) : PFields :=
  match schema.get? coll with
  | some (.dict fl) => schema.set coll (.dict (fl.set field v))
  | _ => schema

/-- Field assignment `schema[coll][field] = v` with no membership guard, as
in the two special-cased relations of `_schema`: a missing collection raises
`KeyError` in Python, modelled as `none`. -/
def setFieldChecked (schema : PFields) (coll field : String) (v : PVal) : Option PFields :=
  match schema.get? coll with
  | some (.dict fl) => some (schema.set coll (.dict (fl.set field v)))
  | _ => none

/-- Embedding of `_apply_relation` (lines 637-668): possession-style verbs
add a plural embedded array or a plural foreign-key array on the left
collection; subordination-style verbs add a singular embedded object or a
singular foreign key; any other verb embeds on the left or places a reverse
foreign key on the right collection. -/
def apply_relation (schema : PFields) (relation choice : String) : PFields :=
  let parts := splitWs relation
  if parts.length < 3 then schema
  else
    let left := parts.headD ""
    let right := parts.getLastD ""
    let verb := strLower (joinSep " " ((parts.drop 1).dropLast))
    let left_collection := collection_name left
    let right_collection := collection_name right
    if schema.hasKey left_collection = false ∨ schema.hasKey right_collection = false then
      schema
    else
      let right_plural := pluralize (strLower right)
      if POSSESSION_VERBS.any (fun w => strContains verb w) then
        if choice == "embed" then
          setFieldTotal schema left_collection right_plural
            (.arr (.cons (.dict (.cons "_id" (.s "ObjectId") .nil)) .nil))
        else
          setFieldTotal schema left_collection (strLower right ++ "Ids")
            (.arr (.cons (.s "ObjectId") .nil))
      else if SUBORDINATION_VERBS.any (fun w => strContains verb w) then
        if choice == "embed" then
          setFieldTotal schema left_collection (strLower right)
            (.dict (.cons "_id" (.s "ObjectId") .nil))
        else
          setFieldTotal schema left_collection (strLower right ++ "Id") (.s "ObjectId")
      else
        if choice == "embed" then
          setFieldTotal schema left_collection right_plural
            (.arr (.cons (.dict (.cons "_id" (.s "ObjectId") .nil)) .nil))
        else
          setFieldTotal schema right_collection (strLower left ++ "Id") (.s "ObjectId")

/-- Per-entity seed collection of `_schema` (lines 673-677): an identity
field followed by the entity's template fields typed `string`. -/
def templateFields (e : String) : PFields :=
  (entityTemplate e).foldl (fun fl f => fl.set f (.s "string"))
    (.cons "_id" (.s "ObjectId") .nil)

/-- The entity loop of `_schema` (lines 672-677). -/
def schema_base (entities : List String) : PFields :=
  entities.foldl (fun sch e => sch.set (collection_name e) (.dict (templateFields e))) .nil

def USER_PLACES_ORDER_EMBED : PVal :=
  .arr (.cons (.dict (PFields.ofList
    [("_id", .s "ObjectId"), ("total", .s "number"), ("status", .s "string"),
     ("createdAt", .s "date")])) .nil)

def ORDER_CONTAINS_PRODUCT_EMBED : PVal :=
  .arr (.cons (.dict (PFields.ofList
    [("productId", .s "ObjectId"), ("quantity", .s "number"), ("price", .s "number")])) .nil)

/-- One decision step of `_schema` (lines 679-696): the relations
`"User places Order"` and `"Order contains Product"` are special-cased with
unguarded collection indexing (whence the `Option`); everything else goes
through `_apply_relation`. -/
def schema_build_step (sch : PFields) (rc : String × String) : Option PFields :=
  if rc.1 == "User places Order" then
    if rc.2 == "embed" then setFieldChecked sch "users" "orders" USER_PLACES_ORDER_EMBED
    else setFieldChecked sch "orders" "userId" (.s "ObjectId")
  else if rc.1 == "Order contains Product" then
    if rc.2 == "embed" then setFieldChecked sch "orders" "items" ORDER_CONTAINS_PRODUCT_EMBED
    else setFieldChecked sch "orders" "productIds" (.arr (.cons (.s "ObjectId") .nil))
  else some (apply_relation sch rc.1 rc.2)

/-- Embedding of `_schema` (lines 671-697). -/
def schema_build (entities : List String) (decisions : List (String × String)) :
    Option PFields :=
  decisions.foldlM schema_build_step (schema_base entities)

/-- Embedding of `_warnings` (lines 715-723). -/
def warnings_fn (text : String) (decisions : List (String × String)) : List PVal :=
  (if strContains (strLower text) "history" = true ∧ decisions.any (fun p => p.2 == "embed") then
    [PVal.s "Embedded history arrays may grow unbounded."] else []) ++
  (if strContains (strLower text) "many" = true ∧ decisions.any (fun p => p.2 == "embed") then
    [PVal.s "Embedding many-to-one data can increase document size and update cost."] else []) ++
  (if strContains (strLower text) "audit" = true ∧ decisions.any (fun p => p.2 == "embed") then
    [PVal.s "Audit logs should usually be referenced to avoid rapid growth."] else [])

def wordCharB (c : Char) : Bool := c.isAlphanum || c = '_'

/-- Word lists of the maximal `[\w\s]` runs of a text (characters outside
the class split the text into segments a match cannot cross). -/
def segmentsOf (t : String) : List (List String) :=
  (splitDrop (fun c => !(wordCharB c || c.isWhitespace)) (chars t)).map
    (fun seg => (splitDrop Char.isWhitespace seg).map ofChars)

/-- First `some` produced by `f` along a list. -/
def firstSome {α β : Type} (f : α → Option β) : List α → Option β
  | [] => none
  | x :: rest =>
      match f x with
      | some y => some y
      | none => firstSome f rest

/-- Suffixes following each word that ends with the keyword, in order of
occurrence. -/
def scanKeyword (endsKw : String) : List String → List (List String)
  | [] => []
  | w :: rest =>
      (if strEndsWith w endsKw then [rest] else []) ++ scanKeyword endsKw rest

/-- All decompositions `ws = before ++ ["in"] ++ after`, ordered by the
position of the standalone word `in` (the backtracking order of a lazy
group followed by `\s+in\s+`). -/
def splitsAtIn : List String → List (List String × List String)
  | [] => []
  | w :: rest =>
      let tailSplits := (splitsAtIn rest).map (fun p => (w :: p.1, p.2))
      if w == "in" then ([], rest) :: tailSplits else tailSplits

/-- Words before the first word starting with the trailing literal, with at
least one word accumulated (the lazy parent group of the force-embed
patterns). -/
def findTrailGo (trailKw : String) : List String → List String → Option (List String)
  | [], _ => none
  | w :: rest, acc =>
      if strStartsWith w trailKw && !acc.isEmpty then some acc.reverse
      else findTrailGo trailKw rest (w :: acc)

/-- Matcher for `keep\s+(child)\s+in\s+(parent)\s+collection` /
`keep\s+(child)\s+in\s+(parent)\s+only` (child and parent lazy `[\w\s]+?`
groups). -/
def keepPatternMatch (trailKw : String) (segments : List (List String)) :
    Option (String × String) :=
  firstSome (fun ws =>
    firstSome (fun suffix =>
      firstSome (fun (ci : List String × List String) =>
        if ci.1.isEmpty then none
        else (findTrailGo trailKw ci.2 []).map
          (fun parent => (joinSep " " ci.1, joinSep " " parent)))
        (splitsAtIn suffix))
      (scanKeyword "keep" ws))
    segments

/-- Matcher for `embed\s+(child)\s+in\s+(parent)` where the trailing lazy
`[\w\s]+?` parent group matches exactly one character. -/
def embedPatternMatch (segments : List (List String)) : Option (String × String) :=
  firstSome (fun ws =>
    firstSome (fun suffix =>
      firstSome (fun (ci : List String × List String) =>
        if ci.1.isEmpty then none
        else match ci.2 with
          | w :: _ =>
              match chars w with
              | c :: _ => some (joinSep " " ci.1, ofChars [c])
              | [] => none
          | [] => none)
        (splitsAtIn suffix))
      (scanKeyword "embed" ws))
    segments

/-- The pattern cascade of `_apply_force_embed_from_refinement`
(lines 1465-1478). -/
def forceEmbedMatch (lowered : String) : Option (String × String) :=
  let segs := segmentsOf lowered
  match keepPatternMatch "collection" segs with
  | some m => some m
  | none =>
      match keepPatternMatch "only" segs with
      | some m => some m
      | none => embedPatternMatch segs

/-- The two foreign-key spellings stripped after a force-embed move
(lines 1511-1515; the source builds a two-element set). -/
def candidate_ids (child : String) : List String :=
  dedupStr [to_camel (singularize child) ++ "Id", to_camel child ++ "Id"]

def removeKeys (fl : PFields) : List String → PFields
  | [] => fl
  | k :: rest => removeKeys (fl.remove k) rest

/-- Final result assembly of `_apply_force_embed_from_refinement`
(lines 1526-1539): the entity list, attribute table and decisions are
updated in place only when present with the expected shape, then the
mutated schema is stored back. -/
def applyForceEmbedResult (r : PFields) (entitiesU : Option PList)
    (attrsU decsU : Option PFields) (schema3 : PFields) : PFields :=
  let r1 := match entitiesU with
    | some es => r.set "entities" (.arr es)
    | none => r
  let r2 := match attrsU with
    | some a => r1.set "attributes" (.dict a)
    | none => r1
  let r3 := match decsU with
    | some d2 => r2.set "decisions" (.dict d2)
    | none => r2
  r3.set "schema" (.dict schema3)

/-- The successful branch of `_apply_force_embed_from_refinement`
(lines 1497-1540), applied once the child and parent collections have been
resolved to distinct dict-valued collections: embed the child's non-identity
fields on the parent under the pluralized camel-case field name (unless that
field already exists), drop the child collection, strip the candidate child
foreign keys from every remaining dict collection, and update the entity
list / attribute table / decisions when they carry the expected shapes. -/
def force_embed_success (result : PFields) (schema : PFields) (cc pc child : String)
    (child_fields parent_fields : PFields) : PFields :=
  let embed_field := pluralize (to_camel child)
  let embedded_doc :=
    if (child_fields.remove "_id").isEmpty then
      PFields.cons "_id" (.s "ObjectId") .nil
    else child_fields.remove "_id"
  let parent_fields2 :=
    if parent_fields.hasKey embed_field then parent_fields
    else parent_fields.set embed_field (.arr (.cons (.dict embedded_doc) .nil))
  let schema2 := (schema.set pc (.dict parent_fields2)).remove cc
  let schema3 := schema2.mapVals (fun f =>
    match f with
    | .dict fl => .dict (removeKeys fl (candidate_ids child))
    | other => other)
  let child_entity := title_case (normalize_term child)
  let entitiesU := match result.get? "entities" with
    | some (.arr es) =>
        some (es.filter (fun e => !(pvalBeq e (.s child_entity))))
    | _ => none
  let attrsU := match result.get? "attributes" with
    | some (.dict attrs) => some (attrs.remove child_entity)
    | _ => none
  let decsU := match result.get? "decisions" with
    | some (.dict decs) =>
        let decs1 := decs.remove cc
        some (match decs1.get? pc with
          | some (.s dstr) =>
              decs1.set pc (.s (dstr ++ " Guests embedded for locality"))
          | _ => decs1)
    | _ => none
  applyForceEmbedResult result entitiesU attrsU decsU schema3

/-- Embedding of `_apply_force_embed_from_refinement` (lines 1455-1540):
when the refinement asks to keep/embed a child inside a parent, embed the
child's non-identity fields as an array sub-document on the parent, drop the
child collection, strip dangling child foreign keys everywhere, and update
the entity list, attribute table and decisions.  (The Boolean the source
returns is unused by its callers and is not modelled.) -/
def apply_force_embed (refinement_text : String) (result : PFields) : PFields :=
  match result.get? "schema" with
  | some (.dict schema) =>
    (match forceEmbedMatch (strLower refinement_text) with
    | none => result
    | some cp =>
      if normalize_term cp.1 = "" ∨ normalize_term cp.2 = "" then result
      else
        match resolve_collection schema (normalize_term cp.1),
            resolve_collection schema (normalize_term cp.2) with
        | some cc, some pc =>
          if cc = pc then result
          else
            match schema.get? cc, schema.get? pc with
            | some (.dict child_fields), some (.dict parent_fields) =>
                force_embed_success result schema cc pc (normalize_term cp.1) child_fields
                  parent_fields
            | _, _ => result
        | _, _ => result)
  | _ => result

/-- Word/comma tokens of the maximal `[\w\s,]` runs of a text (commas are
their own tokens so that name lists can be split on them). -/
def commaTokenizeGo : List Char → List Char → List String
  | [], acc => if acc.isEmpty then [] else [ofChars acc.reverse]
  | c :: rest, acc =>
      if c.isWhitespace then
        (if acc.isEmpty then commaTokenizeGo rest []
         else ofChars acc.reverse :: commaTokenizeGo rest [])
      else if c = ',' then
        (if acc.isEmpty then "," :: commaTokenizeGo rest []
         else ofChars acc.reverse :: "," :: commaTokenizeGo rest [])
      else commaTokenizeGo rest (c :: acc)

def commaSegmentsOf (t : String) : List (List String) :=
  (splitDrop (fun c => !(wordCharB c || c.isWhitespace || c = ',')) (chars t)).map
    (fun seg => commaTokenizeGo seg [])

/-- Python `re.split(r",|\band\b", raw)` over a token list: groups of words
separated by comma tokens or the standalone word `and`, each group joined
back into one stripped name. -/
def groupNamesGo : List String → List String → List (List String)
  | [], acc => [acc.reverse]
  | t :: rest, acc =>
      if t == "," || t == "and" then acc.reverse :: groupNamesGo rest []
      else groupNamesGo rest (t :: acc)

/-- The token filter of `_apply_force_add_collections_from_refinement`
(line 1571). -/
def ADD_NAME_STOPWORDS : List String :=
  ["collection", "collections", "entity", "entities", "table", "tables", "also"]

def extractNames (toks : List String) : List String :=
  ((groupNamesGo toks []).map (fun g => joinSep " " g)).filter
    (fun n => n != "" && !(ADD_NAME_STOPWORDS.contains n))

/-- Pattern `add\s+collections?\s+(?:named\s+)?(?P<names>[\w\s,]+)`
applied to the tokens after an `add` keyword. -/
def addP1 (suffix : List String) : Option (List String) :=
  match suffix with
  | c1 :: rest1 =>
      if c1 == "collection" || c1 == "collections" then
        let rest2 := match rest1 with
          | n :: r => if n == "named" then r else rest1
          | [] => []
        if rest2.isEmpty then none else some (extractNames rest2)
      else none
  | [] => none

/-- Pattern `add\s+collections?\s+for\s+(?P<names>[\w\s,]+)`. -/
def addP2 (suffix : List String) : Option (List String) :=
  match suffix with
  | c1 :: f :: rest2 =>
      if (c1 == "collection" || c1 == "collections") && f == "for" && !rest2.isEmpty then
        some (extractNames rest2)
      else none
  | _ => none

/-- Pattern `add\s+(?P<names>[\w\s,]+?)\s+collections?` (lazy names up to the
first word starting with `collection`). -/
def addP3 (suffix : List String) : Option (List String) :=
  go suffix []
where
  go : List String → List String → Option (List String)
    | [], _ => none
    | w :: rest, acc =>
        if strStartsWith w "collection" && !acc.isEmpty then some (extractNames acc.reverse)
        else go rest (w :: acc)

/-- Pattern `add\s+(?P<names>[\w\s,]+)` (greedy names to the end of the
`[\w\s,]` run). -/
def addP4 (suffix : List String) : Option (List String) :=
  if suffix.isEmpty then none else some (extractNames suffix)

/-- Leftmost match of one pattern across the comma segments. -/
def addPatternSearch (segs : List (List String))
    (p : List String → Option (List String)) : Option (List String) :=
  firstSome (fun ws => firstSome p (scanKeyword "add" ws)) segs

/-- The pattern cascade of `_apply_force_add_collections_from_refinement`
(lines 1553-1575): the first pattern that matches and yields a non-empty
cleaned name list wins; a matching pattern whose names all filter away falls
through to the next pattern. -/
def forceAddNames (lowered : String) : List String :=
  let segs := commaSegmentsOf lowered
  let step := fun (prev : List String) (p : List String → Option (List String)) =>
    if prev.isEmpty then ((addPatternSearch segs p).getD []) else prev
  step (step (step (step [] addP1) addP2) addP3) addP4

def pyAsPList : PVal → PList
  | .arr es => es
  | _ => .nil

/-- Final result assembly of `_apply_force_add_collections_from_refinement`
(lines 1591-1595): schema, entity list and attribute table are stored back
unconditionally, decisions only when they were a dict. -/
def applyForceAddResult (r : PFields) (schema : PFields) (entities : PList)
    (attributes : PFields) (decisionsU : Option PFields) : PFields :=
  let r1 := ((r.set "schema" (.dict schema)).set "entities"
    (.arr entities)).set "attributes" (.dict attributes)
  match decisionsU with
  | some d => r1.set "decisions" (.dict d)
  | none => r1

/-- Embedding of `_apply_force_add_collections_from_refinement`
(lines 1543-1596): ensure one collection per extracted name and record a
generic decision rationale.  Non-list `entities` or non-dict `attributes`
values would make the Python loop raise; they are coerced to empty here and
excluded by the well-formedness hypotheses of the claims that evaluate this
function symbolically. -/
def force_add_state (schema : PFields) (entities : PList) (attributes : PFields)
    (decisions : PFields) (decisionsIsDict : Bool) (names : List String) :
    PFields × PList × PFields × PFields :=
  names.foldl
    (fun (acc : PFields × PList × PFields × PFields) name =>
      let e := ensure_collection acc.1 acc.2.1 acc.2.2.1 name
      let decs1 := if decisionsIsDict then
          acc.2.2.2.setdefault e.collection
            (.s "→ SEPARATE COLLECTION - Requested in refinement")
        else acc.2.2.2
      (e.schema, e.entities, e.attributes, decs1))
    (schema, entities, attributes, decisions)

def force_add_success (result : PFields) (schema : PFields) (decisions : PFields)
    (decisionsIsDict : Bool) (names : List String) : PFields :=
  applyForceAddResult result
    (force_add_state schema (pyAsPList (result.getD "entities" (.arr .nil)))
      (pyAsDict (result.getD "attributes" (.dict .nil))) decisions decisionsIsDict names).1
    (force_add_state schema (pyAsPList (result.getD "entities" (.arr .nil)))
      (pyAsDict (result.getD "attributes" (.dict .nil))) decisions decisionsIsDict names).2.1
    (force_add_state schema (pyAsPList (result.getD "entities" (.arr .nil)))
      (pyAsDict (result.getD "attributes" (.dict .nil))) decisions decisionsIsDict names).2.2.1
    (if decisionsIsDict then
      some (force_add_state schema (pyAsPList (result.getD "entities" (.arr .nil)))
        (pyAsDict (result.getD "attributes" (.dict .nil))) decisions decisionsIsDict
        names).2.2.2
     else none)

def apply_force_add (refinement_text : String) (result : PFields) : PFields :=
  match result.get? "schema" with
  | some (.dict schema) =>
      if (forceAddNames (strLower refinement_text)).isEmpty then result
      else
        match result.getD "decisions" (.dict .nil) with
        | .dict d0 =>
            force_add_success result schema d0 true (forceAddNames (strLower refinement_text))
        | _ =>
            force_add_success result schema .nil false
              (forceAddNames (strLower refinement_text))
  | _ => result

structure SchemaOut where
  schemaVersion : Int
  previousVersionId : PVal
  schema : PFields
  relationships : List (String × String)
  warnings : PVal
  refinementSummary : Option String := none
  deriving Repr

/-- Python `dict.fromkeys(xs)` keeps the first occurrence of each element. -/
def pyDedupGo : List PVal → List PVal → List PVal
  | [], _ => []
  | x :: rest, seen =>
      if seen.any (fun y => pvalBeq y x) then pyDedupGo rest seen
      else x :: pyDedupGo rest (x :: seen)

def pyDedup (l : List PVal) : List PVal := pyDedupGo l []

/-- Python `list.extend(v)`: lists extend element-wise, strings extend
character-wise, dicts extend with their keys; other values are not iterable
and raise `TypeError` (modelled as `none`). -/
def pyIterToList : PVal → Option (List PVal)
  | .arr l => some l.toList
  | .s t => some ((chars t).map (fun c => PVal.s (ofChars [c])))
  | .dict d => some (d.keys.map PVal.s)
  | _ => none

/-- Python hashability, needed by `dict.fromkeys`: lists and dicts are
unhashable (`TypeError`). -/
def pvalHashable : PVal → Bool
  | .arr _ => false
  | .dict _ => false
  | _ => true

/-- The list-to-dict relationship conversion of `generate_schema`
(lines 864-873): each string of the form `a -> b -> ...` becomes an entry
`"a to b" -> original string`. -/
def relListToDict : PList → PFields → PFields
  | .nil, acc => acc
  | .cons (.s rel) rest, acc =>
      let parts := splitOnSub " -> " rel
      if 2 ≤ parts.length then
        relListToDict rest (acc.set (joinSep " to " (parts.take 2)) (.s rel))
      else relListToDict rest acc
  | .cons _ rest, acc => relListToDict rest acc

/-- The relationship-shape repair shared by both success paths: when
`decisions` is a dict holding a dict under `"relationships"`, that nested
dict is popped out and used as the relationship mapping
(`generate_schema` lines 862-863, `apply_refinement` lines 1077-1078);
`generate_schema` additionally converts a list-shaped relationship value
(lines 864-873) when `convertList` is set.  (With a non-dict `decisions`
value, the source's `"relationships" in decisions_obj` test evaluates
against that object; for the list/str shapes a `True` outcome would crash
`.pop` inside the `try` block — an unreachable corner for well-formed
responses, modelled as the no-pop branch.) -/
def relationshipsPair (relationships_obj decisions_obj : PVal) (convertList : Bool) :
    PVal × PVal :=
  match decisions_obj with
  | .dict d =>
      (match d.get? "relationships" with
       | some (.dict rd) => (PVal.dict rd, PVal.dict (d.remove "relationships"))
       | _ =>
          (match relationships_obj with
           | .arr items =>
              (if convertList then PVal.dict (relListToDict items .nil) else relationships_obj,
               decisions_obj)
           | _ => (relationships_obj, decisions_obj)))
  | _ =>
      (match relationships_obj with
       | .arr items =>
          (if convertList then PVal.dict (relListToDict items .nil) else relationships_obj,
           decisions_obj)
       | _ => (relationships_obj, decisions_obj))

/-- The successful-response path of `generate_schema` (lines 857-906). -/
def generate_schema_success (result : PFields) : SchemaOut :=
  let pair := relationshipsPair (result.getD "relationships" (.dict .nil))
    (result.getD "decisions" (.dict .nil)) true
  { schemaVersion := (build_schema_version none).schemaVersion
  , previousVersionId := (build_schema_version none).previousVersionId
  , schema := normalize_schema (result.getD "schema" (.dict .nil))
  , relationships := normalize_relationships pair.1 pair.2
  , warnings := result.getD "warnings" (.arr .nil)
  , refinementSummary := none }

/-- Embedding of `_generate_schema_fallback` (lines 913-942).  `none` models
the `KeyError` the synthesizer's special-cased relations can raise on
collections that were never created; the extractor pipeline never emits
those relation labels, so the theorems assume them away explicitly. -/
def generate_schema_fallback (input_text _workload_type error : String)
    (entities relationships : List String) : Option SchemaOut :=
  let de := advanced_decision_engine input_text relationships
  let relationships_obj := normalize_relationships
    (.arr (PList.ofList (relationships.map PVal.s)))
    (.dict (PFields.ofList (de.decisions.map (fun p => (p.1, PVal.s p.2)))))
  match schema_build entities de.decisions with
  | none => none
  | some raw =>
      some { schemaVersion := (build_schema_version none).schemaVersion
           , previousVersionId := (build_schema_version none).previousVersionId
           , schema := normalize_schema (.dict raw)
           , relationships := relationships_obj
           , warnings := .arr (PList.ofList (warnings_fn input_text de.decisions ++
               [.s ("Fallback NLP mode (Groq error: " ++ error ++ ")")]))
           , refinementSummary := none }

/-- Embedding of `generate_schema` (lines 736-910): the generative response
is normalized on success; any exception from the adapter falls back to the
rule-based generator with the error text appended to the warnings. -/
def generate_schema (input_text workload_type : String) (llm : Except String PFields)
    (extracted_entities extracted_relationships : List String) : Option SchemaOut :=
  match llm with
  | .ok result => some (generate_schema_success result)
  | .error e =>
      generate_schema_fallback input_text workload_type e extracted_entities
        extracted_relationships

/-- The successful-response path of `apply_refinement` (lines 1054-1109):
force rules, normalization, diff/equality, summary honesty check with
deterministic regeneration, relationship repair, versioning. -/
def apply_refinement_success (base_result : PFields) (refinement_text : String)
    (result0 : PFields) (old_schema : PFields) (old_metrics : Metrics) : SchemaOut :=
  let result := apply_force_add refinement_text (apply_force_embed refinement_text result0)
  let new_schema := normalize_schema (result.getD "schema" .null)
  let new_metrics := schema_metrics new_schema
  let diff := diff_schema old_schema new_schema
  let schema_changed := !(schemas_equal old_schema new_schema)
  let summaryRaw := result.getD "refinementSummary" .null
  let summary := if validate_summary summaryRaw schema_changed then
      (match summaryRaw with | .s st => st | _ => "")
    else generate_summary old_metrics new_metrics diff schema_changed
  let pair := relationshipsPair (result.getD "relationships" (.dict .nil))
    (result.getD "decisions" (.dict .nil)) false
  let v := build_schema_version (some base_result)
  { schemaVersion := v.schemaVersion
  , previousVersionId := v.previousVersionId
  , schema := new_schema
  , relationships := normalize_relationships pair.1 pair.2
  , warnings := result.getD "warnings" (.arr .nil)
  , refinementSummary := some summary }

/-- The exception path of `apply_refinement` (lines 1111-1161): a deep copy
of the previous result with the two force rules applied, renormalized, with
a deterministic summary and the error text prepended to the deduplicated
warnings.  `none` models the `TypeError` raised when the previous result's
`warnings` value is not iterable or contains unhashable elements. -/
def apply_refinement_fallback (base_result : PFields) (refinement_text e : String)
    (old_schema : PFields) (old_metrics : Metrics) : Option SchemaOut :=
  let f := apply_force_add refinement_text (apply_force_embed refinement_text base_result)
  let fallback_schema := normalize_schema (f.getD "schema" (.dict old_schema))
  let fallback_metrics := schema_metrics fallback_schema
  let fallback_diff := diff_schema old_schema fallback_schema
  let fallback_changed := !(schemas_equal old_schema fallback_schema)
  let fallback_summary :=
    generate_summary old_metrics fallback_metrics fallback_diff fallback_changed
  match pyIterToList (f.getD "warnings" (.arr .nil)) with
  | none => none
  | some ws0 =>
      let ws := PVal.s ("LLM refinement failed - deterministic fallback: " ++ e) :: ws0
      if ws.all pvalHashable then
        let v := build_schema_version (some base_result)
        some { schemaVersion := v.schemaVersion
             , previousVersionId := v.previousVersionId
             , schema := fallback_schema
             , relationships := normalize_relationships
                 (f.getD "relationships" (base_result.getD "relationships" (.arr .nil)))
                 (f.getD "decisions" (base_result.getD "decisions" (.dict .nil)))
             , warnings := .arr (PList.ofList (pyDedup ws))
             , refinementSummary := some fallback_summary }
      else none

/-- Embedding of `apply_refinement` (lines 996-1161): first generative
attempt; one bounded retry with the stricter prompt when the response lacks
a `schema` key; the exception path on adapter failure or a still-missing
`schema` key (the `ValueError("LLM response missing schema")` of line 1061
is caught by the same `except` block). -/
def apply_refinement (base_result : PFields) (refinement_text _workload_type : String)
    (llm1 llm2 : Except String PFields) : Option SchemaOut :=
  let old_schema := normalize_schema (base_result.getD "schema" (.dict .nil))
  let old_metrics := schema_metrics old_schema
  match llm1 with
  | .error e => apply_refinement_fallback base_result refinement_text e old_schema old_metrics
  | .ok r1 =>
      if r1.hasKey "schema" then
        some (apply_refinement_success base_result refinement_text r1 old_schema old_metrics)
      else
        match llm2 with
        | .error e =>
            apply_refinement_fallback base_result refinement_text e old_schema old_metrics
        | .ok r2 =>
            if r2.hasKey "schema" then
              some (apply_refinement_success base_result refinement_text r2 old_schema
                old_metrics)
            else
              apply_refinement_fallback base_result refinement_text
                "LLM response missing schema" old_schema old_metrics

/-!
The comparison pipeline's structural relationship derivation (claim C7):
compare_engine's `_normalize_relationships` and
`_infer_relationships_from_schema`
(`src/backend/app/services/compare_engine.py`, lines 405-440 and 451-478),
and the slice of `generate_schema_for_comparison` that invokes them (lines
756-758).  compare_engine's `_parse_embed_reference`, `_looks_like_relation`
and `_pluralize` are verbatim copies of schema_engine's, so the embeddings
`parse_embed_reference`, `looks_like_relation` and `pluralize` are shared.
-/

/-- The mapping branch of compare_engine's `_normalize_relationships`
(compare_engine.py lines 409-419): parsed choice, else the same label's
decision entry, else a raw string choice kept verbatim, else `reference`.
The output dict is built in insertion order with overwrite
(`PFields.set`). -/
def ce_normalize_dict (decisions : PFields) : PFields → PFields → PFields
  | .nil, acc => acc
  | .cons rel choice rest, acc =>
      match parse_embed_reference choice with
      | some nc => ce_normalize_dict decisions rest (acc.set rel (.s nc))
      | none =>
          match parse_embed_reference (decisions.getD rel .null) with
          | some nc => ce_normalize_dict decisions rest (acc.set rel (.s nc))
          | none =>
              match choice with
              | .s t => ce_normalize_dict decisions rest (acc.set rel (.s t))
              | _ => ce_normalize_dict decisions rest (acc.set rel (.s "reference"))

/-- The list branch of compare_engine's `_normalize_relationships`
(compare_engine.py lines 420-428): choices resolve through `decisions`; an
unresolved label maps to itself.  Non-string entries are skipped. -/
def ce_normalize_list (decisions : PFields) : PList → PFields → PFields
  | .nil, acc => acc
  | .cons (.s rel) rest, acc =>
      (match parse_embed_reference (decisions.getD rel .null) with
       | some nc => ce_normalize_list decisions rest (acc.set rel (.s nc))
       | none => ce_normalize_list decisions rest (acc.set rel (.s rel)))
  | .cons _ rest, acc => ce_normalize_list decisions rest acc

/-- The empty-result fallback of compare_engine's `_normalize_relationships`
(compare_engine.py lines 430-438): relation-looking decision keys keep
their parsed choice, or their raw string choice; other values are
skipped. -/
def ce_normalize_fallback : PFields → PFields → PFields
  | .nil, acc => acc
  | .cons rel choice rest, acc =>
      if looks_like_relation rel then
        match parse_embed_reference choice with
        | some nc => ce_normalize_fallback rest (acc.set rel (.s nc))
        | none =>
            match choice with
            | .s t => ce_normalize_fallback rest (acc.set rel (.s t))
            | _ => ce_normalize_fallback rest acc
      else ce_normalize_fallback rest acc

/-- Shape dispatch of compare_engine's `_normalize_relationships`: mapping
and list inputs normalize entry-wise; any other shape yields nothing. -/
def ce_normalize_main (decisions : PFields) : PVal → PFields
  | .dict items => ce_normalize_dict decisions items .nil
  | .arr items => ce_normalize_list decisions items .nil
  | _ => .nil

/-- Embedding of compare_engine's `_normalize_relationships` (lines
405-440).  Like schema_engine's variant it reads only `relationships_obj`
and `decisions` (no schema input); unlike it, the empty-result fallback
runs inside this function and raw string choices survive. -/
def ce_normalize_relationships (relationships_obj decisions_obj : PVal) : PFields :=
  if (ce_normalize_main (pyAsDict decisions_obj) relationships_obj).isEmpty then
    ce_normalize_fallback (pyAsDict decisions_obj) .nil
  else ce_normalize_main (pyAsDict decisions_obj) relationships_obj

/-- One field of `_infer_relationships_from_schema` (compare_engine.py
lines 451-478): the `Ids` / `Id` / `_id` suffix cascade, skipping the
collection's own `_id` field and empty bases (in the source,
`_pluralize(base) if base else ""` is empty exactly when `base` is, and an
empty `target` is skipped). -/
def inferFieldEntry (collection fname : String) : Option (String × String) :=
  if strEndsWith fname "Ids" then
    (if strDropRight fname 3 == "" then none
     else some (collection ++ " -> " ++ pluralize (strDropRight fname 3),
       collection ++ " has many " ++ pluralize (strDropRight fname 3)
         ++ " (via " ++ fname ++ ")"))
  else if strEndsWith fname "Id" then
    (if strDropRight fname 2 == "" then none
     else some (collection ++ " -> " ++ pluralize (strDropRight fname 2),
       collection ++ " references " ++ pluralize (strDropRight fname 2)
         ++ " (via " ++ fname ++ ")"))
  else if strEndsWith fname "_id" && fname != "_id" then
    (if strDropRight fname 3 == "" then none
     else some (collection ++ " -> " ++ pluralize (strDropRight fname 3),
       collection ++ " references " ++ pluralize (strDropRight fname 3)
         ++ " (via " ++ fname ++ ")"))
  else none

/-- The inner field loop of `_infer_relationships_from_schema`. -/
def inferCollection (collection : String) : List String → PFields → PFields
  | [], acc => acc
  | f :: rest, acc =>
      match inferFieldEntry collection f with
      | some kv => inferCollection collection rest (acc.set kv.1 (.s kv.2))
      | none => inferCollection collection rest acc

/-- The collection loop of `_infer_relationships_from_schema`; non-dict
collection values are skipped. -/
def inferGo : PFields → PFields → PFields
  | .nil, acc => acc
  | .cons collection (.dict fl) rest, acc =>
      inferGo rest (inferCollection collection fl.keys acc)
  | .cons _ _ rest, acc => inferGo rest acc

/-- Embedding of compare_engine's `_infer_relationships_from_schema`
(lines 451-478): the structural derivation of relationships from
Id-suffixed schema fields.  The leading
`if not schema or not isinstance(schema, dict)` guard returns the empty
dict, which the loop also produces on an empty dict; non-dict inputs
cannot occur in the model (the call site passes a `_normalize_schema`
result). -/
def infer_relationships_from_schema (schema : PFields) : PFields :=
  inferGo schema .nil

/-- The relationship slice of `generate_schema_for_comparison`
(compare_engine.py lines 756-758): normalize, and on an empty result infer
structurally from the normalized schema. -/
def ce_relationships_final (relationships_obj decisions_obj : PVal)
    (normalized_schema : PFields) : PFields :=
  if (ce_normalize_relationships relationships_obj decisions_obj).isEmpty then
    infer_relationships_from_schema normalized_schema
  else ce_normalize_relationships relationships_obj decisions_obj

/-!
Spec-side models used to compare claims against the code.
-/

/-- Word-level helpers for the spec-modelled regex rule engine below. -/
def specCollKind (k : String) : Bool := k == "collection" || k == "entity" || k == "table"

def specName : List String → List String
  | "named" :: r => r
  | r => r

def splitAtWord (w : String) : List String → Option (List String × List String)
  | [] => none
  | x :: rest =>
      if x == w then some ([], rest)
      else (splitAtWord w rest).map (fun p => (x :: p.1, p.2))

/-- Modelled from the spec (§4.7, claim C4): one sentence of the
"pure regex-rule engine" the spec describes as the refinement fallback —
recognize add/remove/rename-collection, add/remove/rename-field,
change-field-type and embed/reference-relation commands, mutate the schema
accordingly, and silently ignore everything else.  The repository contains
a function of exactly this shape (`_apply_refinement_regex`,
lines 1668-1927 — its remove-collection rule at lines 1702-1711 pops the
resolved collection), but `apply_refinement` never calls it. -/
def spec_sentence_apply (schema : PFields) (sentence : String) : PFields :=
  match splitWs (strLower sentence) with
  | "add" :: "field" :: rest =>
      (match splitAtWord "to" rest with
       | some (fw, cw) =>
          (match resolve_collection schema (joinSep " " cw) with
           | some c => setFieldTotal schema c (to_camel (normalize_term (joinSep " " fw)))
               (.s "string")
           | none => schema)
       | none => schema)
  | "remove" :: "field" :: rest =>
      (match splitAtWord "from" rest with
       | some (fw, cw) =>
          (match resolve_collection schema (joinSep " " cw) with
           | some c =>
              (match schema.get? c with
               | some (.dict fl) =>
                  schema.set c (.dict (fl.remove (to_camel (normalize_term (joinSep " " fw)))))
               | _ => schema)
           | none => schema)
       | none => schema)
  | "rename" :: "field" :: rest =>
      (match splitAtWord "to" rest with
       | some (ow, rest2) =>
          (match splitAtWord "in" rest2 with
           | some (nw, cw) =>
              (match resolve_collection schema (joinSep " " cw) with
               | some c =>
                  (match schema.get? c with
                   | some (.dict fl) =>
                      let oldf := to_camel (normalize_term (joinSep " " ow))
                      (match fl.get? oldf with
                       | some v => schema.set c (.dict ((fl.remove oldf).set
                           (to_camel (normalize_term (joinSep " " nw))) v))
                       | none => schema)
                   | _ => schema)
               | none => schema)
           | none => schema)
       | none => schema)
  | "change" :: "field" :: rest =>
      (match splitAtWord "to" rest with
       | some (fw, rest2) =>
          (match splitAtWord "in" rest2 with
           | some (tw, cw) =>
              (match resolve_collection schema (joinSep " " cw) with
               | some c => setFieldTotal schema c (to_camel (normalize_term (joinSep " " fw)))
                   (.s (normalize_term (joinSep " " tw)))
               | none => schema)
           | none => schema)
       | none => schema)
  | "add" :: k :: rest =>
      if specCollKind k && !(specName rest).isEmpty then
        let coll := pluralize (normalize_term (joinSep " " (specName rest)))
        if schema.hasKey coll then schema
        else schema.set coll (.dict (.cons "_id" (.s "ObjectId") .nil))
      else schema
  | "remove" :: k :: rest =>
      if specCollKind k && !(specName rest).isEmpty then
        match resolve_collection schema (joinSep " " (specName rest)) with
        | some c => schema.remove c
        | none => schema
      else schema
  | "rename" :: k :: rest =>
      if specCollKind k then
        match splitAtWord "to" rest with
        | some (ow, nw) =>
            (match resolve_collection schema (joinSep " " ow) with
             | some oc =>
                (match schema.get? oc with
                 | some v => (schema.remove oc).set (pluralize (normalize_term (joinSep " " nw))) v
                 | none => schema)
             | none => schema)
        | none => schema
      else schema
  | "embed" :: rest =>
      (match splitAtWord "in" rest with
       | some (chw, pw) =>
          (match resolve_collection schema (joinSep " " pw) with
           | some pc => setFieldTotal schema pc
               (pluralize (strLower (joinSep " " chw)))
               (.arr (.cons (.dict (.cons "_id" (.s "ObjectId") .nil)) .nil))
           | none => schema)
       | none => schema)
  | "reference" :: rest =>
      (match splitAtWord "in" rest with
       | some (chw, pw) =>
          (match resolve_collection schema (joinSep " " pw) with
           | some pc => setFieldTotal schema pc
               (singularize (strLower (joinSep " " chw)) ++ "Id") (.s "ObjectId")
           | none => schema)
       | none => schema)
  | _ => schema

/-- Modelled from the spec (§4.7, claim C4): the sentence loop of the
regex rule engine — split the refinement text into sentences and apply each
recognized imperative pattern to a copy of the previous schema. -/
def spec_regex_rule_engine (schema : PFields) (refinement_text : String) : PFields :=
  (splitKeep (fun c => c = '.' || c = '!' || c = '?') refinement_text).foldl
    spec_sentence_apply schema

/-!
Membership and preservation lemmas used by the claim theorems.
-/

/-- All values of a dict are themselves dicts (the invariant of the schemas
built by `_schema`). -/
def AllDict (d : PFields) : Prop := ∀ p ∈ d.toList, ∃ fl, p.2 = PVal.dict fl

/-- Every collection of the schema mapping is a dict containing the `_id`
identity field. -/
def SchemaHasIds (schema : PFields) : Prop :=
  ∀ p ∈ schema.toList, ∃ fl, p.2 = PVal.dict fl ∧ fl.hasKey "_id" = true

/-- Every relationship value is exactly `embed` or `reference`. -/
def RelationshipsNormalized (rels : List (String × String)) : Prop :=
  ∀ p ∈ rels, p.2 = "embed" ∨ p.2 = "reference"

/-- The warnings value is a non-empty list containing a string that embeds
the error text `e`. -/
def WarningsContainError (w : PVal) (e : String) : Prop :=
  ∃ l, w = PVal.arr l ∧ l.toList ≠ [] ∧ ∃ pre post, PVal.s (pre ++ e ++ post) ∈ l.toList

/-- Well-formedness of a stored schema result passed back into
`apply_refinement`, following the normalized Schema shape of spec §3/§6.
Outside this shape the Python fallback path can itself raise (`list.extend`
on a non-iterable `warnings`, `dict.fromkeys` on unhashable warning
entries, `.append`/`in` on non-list `entities`, item access on non-dict
`attributes`/`decisions`/collection values inside the force rules), which
the total model does not reproduce; the claims therefore assume it. -/
structure BaseWF (base : PFields) : Prop where
  warnings : base.get? "warnings" = none ∨
    ∃ xs, base.get? "warnings" = some (.arr xs) ∧ ∀ x ∈ xs.toList, ∃ t, x = PVal.s t
  entities : base.get? "entities" = none ∨ ∃ xs, base.get? "entities" = some (.arr xs)
  attributes : base.get? "attributes" = none ∨
    ∃ d, base.get? "attributes" = some (.dict d) ∧
      ∀ p ∈ d.toList, ∃ xs, p.2 = PVal.arr xs ∧ ∀ x ∈ xs.toList, ∃ t, x = PVal.s t
  decisions : base.get? "decisions" = none ∨ ∃ d, base.get? "decisions" = some (.dict d)
  schema : base.get? "schema" = none ∨
    ∃ d, base.get? "schema" = some (.dict d) ∧ ∀ p ∈ d.toList, ∃ fl, p.2 = PVal.dict fl

/-- Every result the optional pipeline value holds carries the given version
metadata. -/
def VersionIs (o : Option SchemaOut) (n : Int) (vid : PVal) : Prop :=
  ∀ out ∈ o, out.schemaVersion = n ∧ out.previousVersionId = vid

/-- Every result the optional pipeline value holds carries the given schema
mapping. -/
def SchemaIs (o : Option SchemaOut) (s : PFields) : Prop :=
  ∀ out ∈ o, out.schema = s

/-- Every result the optional pipeline value holds carries the given
refinement summary. -/
def SummaryIs (o : Option SchemaOut) (s : String) : Prop :=
  ∀ out ∈ o, out.refinementSummary = some s

/-- Every result the optional pipeline value holds satisfies the `_id`
invariant on every collection. -/
def OutHasIds (o : Option SchemaOut) : Prop :=
  ∀ out ∈ o, SchemaHasIds out.schema

/-- Every derived relationship is the projection of a relation-looking
`decisions` entry whose value parses to its choice (what the empty-result
fallback of `_normalize_relationships` actually computes — no schema is
involved). -/
def FallbackProjected (decisions : PFields) (rels : List (String × String)) : Prop :=
  ∀ p ∈ rels, looks_like_relation p.1 = true ∧
    ∃ v, (p.1, v) ∈ decisions.toList ∧ parse_embed_reference v = some p.2

/-- Every inferred relationship of the structural derivation arises from
some collection's Id-suffixed foreign-key field. -/
def InferSound (schema rels : PFields) : Prop :=
  ∀ p ∈ rels.toList, ∃ c fl f v, (c, PVal.dict fl) ∈ schema.toList ∧ f ∈ fl.keys ∧
    inferFieldEntry c f = some (p.1, v) ∧ p.2 = PVal.s v

/-- Every Id-suffixed foreign-key field of the schema contributes its
inferred key to the structural derivation. -/
def InferComplete (schema : PFields) : Prop :=
  ∀ c fl f, (c, PVal.dict fl) ∈ schema.toList → f ∈ fl.keys →
    ∀ kv, inferFieldEntry c f = some kv →
      (infer_relationships_from_schema schema).hasKey kv.1 = true

def c2_base : PFields :=
  .cons "schemaVersion" (.i 3) (.cons "schemaVersionId" (.s "ver-3") .nil)

def c3_old : PFields :=
  .cons "users" (.dict (.cons "_id" (.s "ObjectId") (.cons "flag" (.s "string") .nil))) .nil

def c3_new : PFields :=
  .cons "users" (.dict (.cons "_id" (.s "ObjectId") (.cons "flag" (.s "number") .nil))) .nil

def c4_schema : PFields := .cons "users" (.dict (.cons "_id" (.s "ObjectId") .nil)) .nil

def c4_base : PFields :=
  .cons "schema" (.dict c4_schema) (.cons "warnings" (.arr .nil) .nil)

def c4a_base : PFields := .cons "schema" (.dict (.cons "posts" (.dict .nil) .nil)) .nil

def c5_summary : String :=
  "This summary describes several structural design considerations."

def c5_schema : PFields := .cons "users" (.dict (.cons "_id" (.s "ObjectId") .nil)) .nil

def c5_base : PFields := .cons "schema" (.dict c5_schema) .nil

def c5_llm : PFields :=
  .cons "schema" (.dict c5_schema) (.cons "refinementSummary" (.s c5_summary) .nil)

def c7_schema : PFields :=
  .cons "orders" (.dict (.cons "_id" (.s "ObjectId")
    (.cons "userId" (.s "ObjectId") .nil))) .nil

def c7_llm : PFields := .cons "schema" (.dict c7_schema) .nil

def c7w_decisions : PVal :=
  .dict (.cons "User has Profile" (.s "embed small subdocument") .nil)

/-!
The claim theorems.
-/

mutual

theorem pvalBeq_refl : (v : PVal) → pvalBeq v v = true
  | .s a => by simp [pvalBeq]
  | .i a => by simp [pvalBeq]
  | .b a => by simp [pvalBeq]
  | .null => by simp [pvalBeq]
  | .arr a => by rw [pvalBeq]; exact plistBeq_refl a
  | .dict a => by rw [pvalBeq]; exact pfieldsBeq_refl a

theorem plistBeq_refl : (l : PList) → plistBeq l l = true
  | .nil => by simp [plistBeq]
  | .cons x xs => by rw [plistBeq, pvalBeq_refl x, plistBeq_refl xs]; rfl

theorem pfieldsBeq_refl : (l : PFields) → pfieldsBeq l l = true
  | .nil => by simp [pfieldsBeq]
  | .cons k v xs => by rw [pfieldsBeq, pvalBeq_refl v, pfieldsBeq_refl xs]; simp

end

theorem aliasLookup_mem {β : Type} {k : String} {v : β} :
    ∀ {l : List (String × β)}, aliasLookup k l = some v → (k, v) ∈ l := by
  intro l
  induction l with
  | nil => intro h; simp [aliasLookup] at h
  | cons hd tl ih =>
    intro h
    rw [aliasLookup] at h
    by_cases he : hd.1 == k
    · simp only [he, if_pos] at h
      cases h
      simp only [List.mem_cons]
      left
      have : hd.1 = k := by simpa using he
      subst this
      rfl
    · simp only [he, if_neg, Bool.false_eq_true, not_false_iff] at h
      exact List.mem_cons_of_mem _ (ih h)

theorem normalize_type_s (t : String) :
    normalize_type (.s t) =
      (match aliasLookup (strLower (strTrim t)) TYPE_ALIASES with
       | some canon => PVal.s canon
       | none => PVal.s t) := rfl

/-- Structural induction principle for `PFields` that leaves the contained
values untouched (the generic `induction` tactic cannot handle the
mutually inductive family directly). -/
theorem pfieldsInd {motive : PFields → Prop} (nil : motive .nil)
    (cons : ∀ k v rest, motive rest → motive (.cons k v rest)) : ∀ l, motive l
  | .nil => nil
  | .cons k v rest => cons k v rest (pfieldsInd nil cons rest)

/-- Structural induction principle for `PList` analogous to `pfieldsInd`. -/
theorem plistInd {motive : PList → Prop} (nil : motive .nil)
    (cons : ∀ v rest, motive rest → motive (.cons v rest)) : ∀ l, motive l
  | .nil => nil
  | .cons v rest => cons v rest (plistInd nil cons rest)

theorem normalize_type_canon_fix {low canon : String}
    (h : aliasLookup low TYPE_ALIASES = some canon) :
    normalize_type (.s canon) = .s canon := by
  have hmem := aliasLookup_mem h
  fin_cases hmem <;> rfl

/-- The type canonicalizer is a closure operator: applying it twice equals
applying it once. -/
theorem normalize_type_fix : ∀ v, normalize_type (normalize_type v) = normalize_type v := by
  intro v
  cases v with
  | s value =>
    cases h : aliasLookup (strLower (strTrim value)) TYPE_ALIASES with
    | some canon =>
      have h2 : normalize_type (.s value) = .s canon := by rw [normalize_type_s, h]
      rw [h2]
      exact normalize_type_canon_fix h
    | none =>
      have h2 : normalize_type (.s value) = .s value := by rw [normalize_type_s, h]
      rw [h2, h2]
  | i n => rfl
  | b x => rfl
  | null => rfl
  | arr l => rfl
  | dict l => rfl

mutual

theorem normalize_field_idem : (v : PVal) → normalize_field (normalize_field v) = normalize_field v
  | .dict l => by rw [normalize_field, normalize_field, normalize_field_fields_idem l]
  | .arr .nil => by rw [normalize_field, normalize_field]
  | .arr (.cons x rest) => by rw [normalize_field, normalize_field, normalize_field_idem x]
  | .s t => by
    have h1 : normalize_field (.s t) = normalize_type (.s t) := by rw [normalize_field]
    rw [h1]
    cases h : aliasLookup (strLower (strTrim t)) TYPE_ALIASES with
    | some canon =>
      have h2 : normalize_type (.s t) = .s canon := by rw [normalize_type_s, h]
      rw [h2]
      have h3 : normalize_field (.s canon) = normalize_type (.s canon) := by rw [normalize_field]
      rw [h3]
      exact normalize_type_canon_fix h
    | none =>
      have h2 : normalize_type (.s t) = .s t := by rw [normalize_type_s, h]
      rw [h2, h1, h2]
  | .i n => rfl
  | .b x => rfl
  | .null => rfl

theorem normalize_field_fields_idem :
    (l : PFields) → normalize_field_fields (normalize_field_fields l) = normalize_field_fields l
  | .nil => rfl
  | .cons k v rest => by
    rw [normalize_field_fields, normalize_field_fields, normalize_field_idem v,
      normalize_field_fields_idem rest]

end

theorem normalize_field_fields_hasKey (l : PFields) (k : String) :
    (normalize_field_fields l).hasKey k = l.hasKey k := by
  induction l using pfieldsInd with
  | nil => rfl
  | cons k0 v rest ih => rw [normalize_field_fields, PFields.hasKey, PFields.hasKey, ih]

theorem normalize_field_fields_set (l : PFields) (k : String) (v : PVal) :
    normalize_field_fields (l.set k v) = (normalize_field_fields l).set k (normalize_field v) := by
  induction l using pfieldsInd with
  | nil => rfl
  | cons k0 v0 rest ih =>
    rw [PFields.set, normalize_field_fields]
    by_cases h : k0 == k
    · simp only [h, if_pos]
      rw [normalize_field_fields, PFields.set]
      simp [h]
    · simp only [h, Bool.false_eq_true, if_false]
      rw [normalize_field_fields, PFields.set]
      simp only [h, Bool.false_eq_true, if_false]
      rw [ih]

theorem pffields_get_set_of_not_hasKey (l : PFields) (k : String) (v : PVal)
    (h : l.hasKey k = false) : (l.set k v).get? k = some v := by
  induction l using pfieldsInd with
  | nil => simp [PFields.set, PFields.get?]
  | cons k0 v0 rest ih =>
    rw [PFields.hasKey] at h
    have h1 : (k0 == k) = false := by
      cases hk : k0 == k
      · rfl
      · rw [hk] at h; simp at h
    have h2 : rest.hasKey k = false := by
      cases hk : PFields.hasKey rest k
      · rfl
      · rw [hk] at h; simp at h
    rw [PFields.set]
    simp only [h1, Bool.false_eq_true, if_false]
    rw [PFields.get?]
    simp only [h1, Bool.false_eq_true, if_false]
    exact ih h2

theorem pffields_get_hasKey (l : PFields) (k : String) (v : PVal)
    (h : l.get? k = some v) : l.hasKey k = true := by
  induction l using pfieldsInd with
  | nil => simp [PFields.get?] at h
  | cons k0 v0 rest ih =>
    rw [PFields.get?] at h
    rw [PFields.hasKey]
    by_cases hk : k0 == k
    · simp [hk]
    · simp only [hk, Bool.false_eq_true, if_false] at h
      simp only [hk, Bool.false_or]
      exact ih h

/-- Every collection value produced by the normalizer contains the `_id` key. -/
theorem normalize_schema_entry_hasId (f : PVal) :
    (normalize_schema_entry f).hasKey "_id" = true := by
  cases f with
  | dict fl =>
    rw [normalize_schema_entry]
    cases h : (normalize_field_fields fl).hasKey "_id" with
    | true => simpa using h
    | false =>
      simp only [h, Bool.false_eq_true, if_false]
      exact pffields_get_hasKey _ _ _ (pffields_get_set_of_not_hasKey _ _ _ h)
  | s t => rfl
  | i n => rfl
  | b x => rfl
  | null => rfl
  | arr l => rfl

/-- When the incoming collection value lacks `_id` (or is not a dict), the
normalizer assigns the canonical identifier `"_id": "ObjectId"`. -/
theorem normalize_schema_entry_inserts (f : PVal)
    (h : ∀ fl, f = .dict fl → fl.hasKey "_id" = false) :
    (normalize_schema_entry f).get? "_id" = some (.s "ObjectId") := by
  cases f with
  | dict fl =>
    have hid : fl.hasKey "_id" = false := h fl rfl
    rw [normalize_schema_entry]
    have hn : (normalize_field_fields fl).hasKey "_id" = false := by
      rw [normalize_field_fields_hasKey]; exact hid
    simp only [hn, Bool.false_eq_true, if_false]
    exact pffields_get_set_of_not_hasKey _ _ _ hn
  | s t => rfl
  | i n => rfl
  | b x => rfl
  | null => rfl
  | arr l => rfl

theorem normalize_schema_entry_idem (f : PVal) :
    normalize_schema_entry (.dict (normalize_schema_entry f)) = normalize_schema_entry f := by
  cases f with
  | dict fl =>
    cases h : (normalize_field_fields fl).hasKey "_id" with
    | true =>
      have e1 : normalize_schema_entry (.dict fl) = normalize_field_fields fl := by
        rw [normalize_schema_entry]; simp [h]
      rw [e1, normalize_schema_entry]
      simp [normalize_field_fields_idem, h]
    | false =>
      have e1 : normalize_schema_entry (.dict fl)
          = (normalize_field_fields fl).set "_id" (.s "ObjectId") := by
        rw [normalize_schema_entry]; simp [h]
      rw [e1, normalize_schema_entry]
      have hk : ((normalize_field_fields fl).set "_id" (.s "ObjectId")).hasKey "_id" = true :=
        pffields_get_hasKey _ _ _ (pffields_get_set_of_not_hasKey _ _ _ h)
      have e2 : normalize_field_fields ((normalize_field_fields fl).set "_id" (.s "ObjectId"))
          = (normalize_field_fields fl).set "_id" (.s "ObjectId") := by
        rw [normalize_field_fields_set, normalize_field_fields_idem]; rfl
      simp [e2, hk]
  | s t => rfl
  | i n => rfl
  | b x => rfl
  | null => rfl
  | arr l => rfl

theorem normalize_schema_fields_idem (l : PFields) :
    normalize_schema_fields (normalize_schema_fields l) = normalize_schema_fields l := by
  induction l using pfieldsInd with
  | nil => rfl
  | cons coll fields rest ih =>
    rw [normalize_schema_fields, normalize_schema_fields, ih, normalize_schema_entry_idem]

/-- Every entry of a normalized schema is a dict containing the `_id` key. -/
theorem normalize_schema_mem (v : PVal) (k : String) (f : PVal)
    (h : (k, f) ∈ (normalize_schema v).toList) :
    ∃ fl, f = .dict fl ∧ fl.hasKey "_id" = true := by
  cases v with
  | dict l =>
    rw [normalize_schema] at h
    induction l using pfieldsInd with
    | nil => simp [normalize_schema_fields, PFields.toList] at h
    | cons coll fields rest ih =>
      rw [normalize_schema_fields, PFields.toList] at h
      rcases List.mem_cons.mp h with h1 | h2
      · cases h1
        exact ⟨_, rfl, normalize_schema_entry_hasId fields⟩
      · exact ih h2
  | s t => simp [normalize_schema, PFields.toList] at h
  | i n => simp [normalize_schema, PFields.toList] at h
  | b x => simp [normalize_schema, PFields.toList] at h
  | null => simp [normalize_schema, PFields.toList] at h
  | arr l => simp [normalize_schema, PFields.toList] at h

/-!
Canonical form, equality, paths, diff, metrics and summaries:
`_deep_normalize`, `_schemas_equal` (lines 1374-1386), `_extract_paths`,
`_diff_schema` (lines 1173-1198), `_count_fields`, `_max_depth`,
`_schema_metrics` (lines 1260-1293), `_validate_summary`,
`_generate_summary` (lines 1212-1257).
-/

theorem schemas_equal_refl (s : PFields) : schemas_equal s s = true := by
  rw [schemas_equal]
  exact pvalBeq_refl _

theorem filter_not_contains_self (l : List String) :
    l.filter (fun p => !(l.contains p)) = [] := by
  rw [List.filter_eq_nil_iff]
  intro a ha
  simp only [Bool.not_eq_true', Bool.not_eq_false]
  exact List.elem_eq_true_of_mem ha

theorem diff_schema_refl (s : PFields) : diff_schema s s = ⟨[], []⟩ := by
  rw [diff_schema]
  simp only [filter_not_contains_self]
  rfl

theorem lookup_map_self (g : String → String) (l : List String) (rel : String)
    (h : rel ∈ l) : (l.map (fun r => (r, g r))).lookup rel = some (g rel) := by
  induction l with
  | nil => simp at h
  | cons hd tl ih =>
    rcases List.mem_cons.mp h with h1 | h2
    · subst h1
      simp [List.lookup]
    · by_cases he : hd = rel
      · subst he
        simp [List.lookup]
      · have hbe : (rel == hd) = false := by
          simp only [beq_eq_false_iff_ne]
          exact fun hh => he hh.symm
        simp only [List.map_cons, List.lookup, hbe]
        exact ih h2

theorem parse_embed_reference_values (v : PVal) (c : String)
    (hc : parse_embed_reference v = some c) : c = "embed" ∨ c = "reference" := by
  cases v with
  | s t =>
    rw [parse_embed_reference] at hc
    split at hc
    · injection hc with h
      left
      exact h.symm
    · split at hc
      · injection hc with h
        right
        exact h.symm
      · exact Option.noConfusion hc
  | i n => simp [parse_embed_reference] at hc
  | b x => simp [parse_embed_reference] at hc
  | null => simp [parse_embed_reference] at hc
  | arr l => simp [parse_embed_reference] at hc
  | dict l => simp [parse_embed_reference] at hc

theorem nr_fallback_values (d : PFields) :
    ∀ q ∈ normalize_relationships_fallback d, q.2 = "embed" ∨ q.2 = "reference" := by
  induction d using pfieldsInd with
  | nil => intro q hq; simp [normalize_relationships_fallback] at hq
  | cons rel choice rest ih =>
    intro q hq
    rw [normalize_relationships_fallback] at hq
    by_cases hl : looks_like_relation rel = true
    · simp only [hl, if_pos] at hq
      cases hc : parse_embed_reference choice with
      | some c =>
        rw [hc] at hq
        rcases List.mem_cons.mp hq with h1 | h2
        · subst h1
          exact parse_embed_reference_values choice c hc
        · exact ih q h2
      | none =>
        rw [hc] at hq
        exact ih q hq
    · simp only [Bool.not_eq_true] at hl
      simp only [hl, Bool.false_eq_true, if_false] at hq
      exact ih q hq

theorem nr_dict_values (d : PFields) (items : PFields) :
    ∀ q ∈ normalize_relationships_dict d items, q.2 = "embed" ∨ q.2 = "reference" := by
  induction items using pfieldsInd with
  | nil => intro q hq; simp [normalize_relationships_dict] at hq
  | cons rel choice rest ih =>
    intro q hq
    rw [normalize_relationships_dict] at hq
    rcases List.mem_cons.mp hq with h1 | h2
    · subst h1
      simp only
      cases hc : (parse_embed_reference choice).orElse
          (fun _ => parse_embed_reference (d.getD rel .null)) with
      | some c =>
        simp only [Option.getD_some]
        cases hch : parse_embed_reference choice with
        | some c1 =>
          rw [hch] at hc
          simp only [Option.orElse] at hc
          injection hc with h
          subst h
          exact parse_embed_reference_values _ _ hch
        | none =>
          rw [hch] at hc
          simp only [Option.orElse] at hc
          exact parse_embed_reference_values _ _ hc
      | none =>
        simp
    · exact ih q h2

theorem nr_list_values (d : PFields) (items : PList) :
    ∀ q ∈ normalize_relationships_list d items, q.2 = "embed" ∨ q.2 = "reference" := by
  induction items using plistInd with
  | nil => intro q hq; simp [normalize_relationships_list] at hq
  | cons v rest ih =>
    intro q hq
    cases v with
    | s rel =>
      rw [normalize_relationships_list] at hq
      rcases List.mem_cons.mp hq with h1 | h2
      · subst h1
        simp only
        cases hc : parse_embed_reference (d.getD rel .null) with
        | some c =>
          simp only [Option.getD_some]
          exact parse_embed_reference_values _ _ hc
        | none =>
          simp
      · exact ih q h2
    | i n => exact ih q hq
    | b x => exact ih q hq
    | null => exact ih q hq
    | arr l2 => exact ih q hq
    | dict l2 => exact ih q hq

/-- Every value of a normalized relationship mapping is exactly `embed` or
`reference`, whatever the input shapes. -/
theorem normalize_relationships_values (relationships_obj decisions_obj : PVal) :
    ∀ p ∈ normalize_relationships relationships_obj decisions_obj,
      p.2 = "embed" ∨ p.2 = "reference" := by
  intro p hp
  rw [normalize_relationships, normalize_relationships_pick] at hp
  split at hp
  · exact nr_fallback_values _ p hp
  · cases relationships_obj with
    | dict items => exact nr_dict_values _ _ p hp
    | arr items => exact nr_list_values _ _ p hp
    | s t => simp [normalize_relationships_main] at hp
    | i n => simp [normalize_relationships_main] at hp
    | b x => simp [normalize_relationships_main] at hp
    | null => simp [normalize_relationships_main] at hp

/-!
Term utilities: `_singularize`, `_pluralize`, `_title_case`,
`_normalize_term`, `_to_camel`, `_collection_name`, `_resolve_collection`,
`_ensure_collection` (lines 317-348, 633-634, 945-979) and the
`ENTITY_TEMPLATES` table (lines 134-188).
-/

theorem pffields_mem_set (d : PFields) (k : String) (v : PVal) (p : String × PVal)
    (h : p ∈ (d.set k v).toList) : p ∈ d.toList ∨ p = (k, v) := by
  induction d using pfieldsInd with
  | nil =>
    rw [PFields.set, PFields.toList, PFields.toList] at h
    rcases List.mem_cons.mp h with h1 | h2
    · right; exact h1
    · simp [PFields.toList] at h2
  | cons k0 v0 rest ih =>
    rw [PFields.set] at h
    by_cases he : k0 == k
    · simp only [he, if_pos] at h
      rw [PFields.toList] at h
      rcases List.mem_cons.mp h with h1 | h2
      · right
        have : k0 = k := by simpa using he
        rw [h1, this]
      · left
        rw [PFields.toList]
        exact List.mem_cons_of_mem _ h2
    · simp only [he, Bool.false_eq_true, if_false] at h
      rw [PFields.toList] at h
      rcases List.mem_cons.mp h with h1 | h2
      · left
        rw [PFields.toList]
        exact List.mem_cons.mpr (Or.inl h1)
      · rcases ih h2 with h3 | h3
        · left
          rw [PFields.toList]
          exact List.mem_cons_of_mem _ h3
        · right; exact h3

theorem pffields_get_mem (d : PFields) (k : String) (v : PVal)
    (h : d.get? k = some v) : (k, v) ∈ d.toList := by
  induction d using pfieldsInd with
  | nil => simp [PFields.get?] at h
  | cons k0 v0 rest ih =>
    rw [PFields.get?] at h
    rw [PFields.toList]
    by_cases he : k0 == k
    · simp only [he, if_pos] at h
      injection h with h2
      have : k0 = k := by simpa using he
      subst this
      subst h2
      exact List.mem_cons_self _ _
    · simp only [he, Bool.false_eq_true, if_false] at h
      exact List.mem_cons_of_mem _ (ih h)

theorem pffields_hasKey_set_self (d : PFields) (k : String) (v : PVal) :
    (d.set k v).hasKey k = true := by
  induction d using pfieldsInd with
  | nil => simp [PFields.set, PFields.hasKey]
  | cons k0 v0 rest ih =>
    rw [PFields.set]
    by_cases he : k0 == k
    · simp [he, PFields.hasKey]
    · simp only [he, Bool.false_eq_true, if_false]
      rw [PFields.hasKey, ih]
      simp

theorem pffields_set_hasKey_mono (d : PFields) (k k2 : String) (v : PVal)
    (h : d.hasKey k = true) : (d.set k2 v).hasKey k = true := by
  induction d using pfieldsInd with
  | nil => simp [PFields.hasKey] at h
  | cons k0 v0 rest ih =>
    rw [PFields.hasKey] at h
    rw [PFields.set]
    by_cases he : k0 == k2
    · simp only [he, if_pos]
      rw [PFields.hasKey]
      exact h
    · simp only [he, Bool.false_eq_true, if_false]
      rw [PFields.hasKey]
      rcases Bool.or_eq_true_iff.mp h with h1 | h1
      · rw [h1]; simp
      · rw [ih h1]; simp

theorem allDict_set (d : PFields) (k : String) (fl : PFields) (h : AllDict d) :
    AllDict (d.set k (.dict fl)) := by
  intro p hp
  rcases pffields_mem_set d k (.dict fl) p hp with h1 | h1
  · exact h p h1
  · rw [h1]
    exact ⟨fl, rfl⟩

theorem setFieldTotal_allDict (sch : PFields) (c f : String) (v : PVal) (h : AllDict sch) :
    AllDict (setFieldTotal sch c f v) := by
  rw [setFieldTotal]
  cases hg : sch.get? c with
  | none => exact h
  | some fv =>
    cases fv with
    | dict fl => exact allDict_set _ _ _ h
    | s t => exact h
    | i n => exact h
    | b x => exact h
    | null => exact h
    | arr l => exact h

theorem setFieldTotal_hasKey (sch : PFields) (c f k : String) (v : PVal)
    (h : sch.hasKey k = true) : (setFieldTotal sch c f v).hasKey k = true := by
  rw [setFieldTotal]
  cases hg : sch.get? c with
  | none => exact h
  | some fv =>
    cases fv with
    | dict fl => exact pffields_set_hasKey_mono _ _ _ _ h
    | s t => exact h
    | i n => exact h
    | b x => exact h
    | null => exact h
    | arr l => exact h

theorem apply_relation_allDict (sch : PFields) (rel choice : String) (h : AllDict sch) :
    AllDict (apply_relation sch rel choice) := by
  simp only [apply_relation]
  repeat' split
  all_goals first
    | exact h
    | exact setFieldTotal_allDict _ _ _ _ h

theorem apply_relation_hasKey (sch : PFields) (rel choice k : String)
    (h : sch.hasKey k = true) : (apply_relation sch rel choice).hasKey k = true := by
  simp only [apply_relation]
  repeat' split
  all_goals first
    | exact h
    | exact setFieldTotal_hasKey _ _ _ _ _ h

theorem pffields_hasKey_get (d : PFields) (k : String) (h : d.hasKey k = true) :
    ∃ v, d.get? k = some v := by
  induction d using pfieldsInd with
  | nil => simp [PFields.hasKey] at h
  | cons k0 v0 rest ih =>
    rw [PFields.hasKey] at h
    rw [PFields.get?]
    by_cases he : k0 == k
    · simp only [he, if_pos]
      exact ⟨v0, rfl⟩
    · simp only [he, Bool.false_eq_true, if_false]
      simp only [he, Bool.false_or] at h
      exact ih h

theorem allDict_nil : AllDict .nil := by
  intro p hp
  simp [PFields.toList] at hp

theorem schema_base_go_hasKey (l : List String) :
    ∀ (init : PFields) (k : String),
    (init.hasKey k = true ∨ ∃ e ∈ l, collection_name e = k) →
    (l.foldl (fun sch e => sch.set (collection_name e) (.dict (templateFields e)))
      init).hasKey k = true := by
  induction l with
  | nil =>
    intro init k h
    rcases h with h | ⟨e, he, _⟩
    · exact h
    · simp at he
  | cons e tl ih =>
    intro init k h
    rw [List.foldl_cons]
    apply ih
    rcases h with h | ⟨e2, he2, heq⟩
    · left
      exact pffields_set_hasKey_mono _ _ _ _ h
    · rcases List.mem_cons.mp he2 with h1 | h1
      · left
        subst h1
        subst heq
        exact pffields_hasKey_set_self _ _ _
      · right
        exact ⟨e2, h1, heq⟩

theorem schema_base_go_allDict (l : List String) :
    ∀ (init : PFields), AllDict init →
    AllDict (l.foldl (fun sch e => sch.set (collection_name e) (.dict (templateFields e)))
      init) := by
  induction l with
  | nil => intro init h; exact h
  | cons e tl ih =>
    intro init h
    rw [List.foldl_cons]
    exact ih _ (allDict_set _ _ _ h)

theorem schema_base_hasKey (entities : List String) (e : String) (he : e ∈ entities) :
    (schema_base entities).hasKey (collection_name e) = true := by
  rw [schema_base]
  exact schema_base_go_hasKey entities .nil _ (Or.inr ⟨e, he, rfl⟩)

theorem schema_base_allDict (entities : List String) : AllDict (schema_base entities) := by
  rw [schema_base]
  exact schema_base_go_allDict entities .nil allDict_nil

theorem setFieldChecked_some (sch : PFields) (c f : String) (v : PVal)
    (hAll : AllDict sch) (hk : sch.hasKey c = true) :
    ∃ sch2, setFieldChecked sch c f v = some sch2 ∧ AllDict sch2 ∧
      ∀ k, sch.hasKey k = true → sch2.hasKey k = true := by
  obtain ⟨fv, hfv⟩ := pffields_hasKey_get sch c hk
  obtain ⟨fl, hfl⟩ := hAll (c, fv) (pffields_get_mem _ _ _ hfv)
  subst hfl
  refine ⟨sch.set c (.dict (fl.set f v)), ?_, allDict_set _ _ _ hAll,
    fun k h2 => pffields_set_hasKey_mono _ _ _ _ h2⟩
  rw [setFieldChecked, hfv]

theorem schema_build_step_some (entities : List String) (sch : PFields)
    (rc : String × String)
    (hAll : AllDict sch) (hKeys : ∀ e ∈ entities, sch.hasKey (collection_name e) = true)
    (hU : rc.1 = "User places Order" → "User" ∈ entities ∧ "Order" ∈ entities)
    (hO : rc.1 = "Order contains Product" → "Order" ∈ entities) :
    ∃ sch2, schema_build_step sch rc = some sch2 ∧ AllDict sch2 ∧
      ∀ e ∈ entities, sch2.hasKey (collection_name e) = true := by
  have husers : "User" ∈ entities → sch.hasKey "users" = true := fun h => hKeys "User" h
  have horders : "Order" ∈ entities → sch.hasKey "orders" = true := fun h => hKeys "Order" h
  rw [schema_build_step]
  by_cases h1 : rc.1 == "User places Order"
  · have h1p : rc.1 = "User places Order" := by simpa using h1
    obtain ⟨hu, ho⟩ := hU h1p
    simp only [h1, if_pos]
    by_cases h2 : rc.2 == "embed"
    · simp only [h2, if_pos]
      obtain ⟨sch2, heq, hA, hm⟩ := setFieldChecked_some sch "users" "orders"
        USER_PLACES_ORDER_EMBED hAll (husers hu)
      exact ⟨sch2, heq, hA, fun e he => hm _ (hKeys e he)⟩
    · simp only [h2, Bool.false_eq_true, if_false]
      obtain ⟨sch2, heq, hA, hm⟩ := setFieldChecked_some sch "orders" "userId"
        (.s "ObjectId") hAll (horders ho)
      exact ⟨sch2, heq, hA, fun e he => hm _ (hKeys e he)⟩
  · simp only [h1, Bool.false_eq_true, if_false]
    by_cases h3 : rc.1 == "Order contains Product"
    · have h3p : rc.1 = "Order contains Product" := by simpa using h3
      have ho := hO h3p
      simp only [h3, if_pos]
      by_cases h2 : rc.2 == "embed"
      · simp only [h2, if_pos]
        obtain ⟨sch2, heq, hA, hm⟩ := setFieldChecked_some sch "orders" "items"
          ORDER_CONTAINS_PRODUCT_EMBED hAll (horders ho)
        exact ⟨sch2, heq, hA, fun e he => hm _ (hKeys e he)⟩
      · simp only [h2, Bool.false_eq_true, if_false]
        obtain ⟨sch2, heq, hA, hm⟩ := setFieldChecked_some sch "orders" "productIds"
          (.arr (.cons (.s "ObjectId") .nil)) hAll (horders ho)
        exact ⟨sch2, heq, hA, fun e he => hm _ (hKeys e he)⟩
    · simp only [h3, Bool.false_eq_true, if_false]
      exact ⟨apply_relation sch rc.1 rc.2, rfl, apply_relation_allDict _ _ _ hAll,
        fun e he => apply_relation_hasKey _ _ _ _ (hKeys e he)⟩

theorem schema_build_go_some (entities : List String) :
    ∀ (decisions : List (String × String)) (sch : PFields),
    AllDict sch → (∀ e ∈ entities, sch.hasKey (collection_name e) = true) →
    (∀ rc ∈ decisions,
      (rc.1 = "User places Order" → "User" ∈ entities ∧ "Order" ∈ entities) ∧
      (rc.1 = "Order contains Product" → "Order" ∈ entities)) →
    ∃ s, decisions.foldlM schema_build_step sch = some s := by
  intro decisions
  induction decisions with
  | nil =>
    intro sch _ _ _
    exact ⟨sch, rfl⟩
  | cons rc tl ih =>
    intro sch hAll hKeys hrc
    obtain ⟨hU, hO⟩ := hrc rc (List.mem_cons_self _ _)
    obtain ⟨sch2, heq, hA2, hK2⟩ := schema_build_step_some entities sch rc hAll hKeys hU hO
    obtain ⟨s, hs⟩ := ih sch2 hA2 hK2 (fun rc2 h2 => hrc rc2 (List.mem_cons_of_mem _ h2))
    refine ⟨s, ?_⟩
    rw [List.foldlM_cons, heq]
    simpa using hs

/-- Totality of the fallback synthesizer: whenever the two special-cased
relations only occur with their entities present, `_schema` raises no
`KeyError`. -/
theorem schema_build_some (entities : List String) (decisions : List (String × String))
    (h : ∀ rc ∈ decisions,
      (rc.1 = "User places Order" → "User" ∈ entities ∧ "Order" ∈ entities) ∧
      (rc.1 = "Order contains Product" → "Order" ∈ entities)) :
    ∃ s, schema_build entities decisions = some s := by
  rw [schema_build]
  exact schema_build_go_some entities decisions (schema_base entities)
    (schema_base_allDict entities) (fun e he => schema_base_hasKey entities e he) h

/-!
Claim-level predicates and the remaining plumbing lemmas.
-/

theorem normalize_schema_hasIds (v : PVal) : SchemaHasIds (normalize_schema v) := by
  intro p hp
  exact normalize_schema_mem v p.1 p.2 hp

theorem plist_toList_ofList (l : List PVal) : (PList.ofList l).toList = l := by
  induction l with
  | nil => rfl
  | cons x rest ih => rw [PList.ofList, PList.toList, ih]

theorem pffields_get_set (d : PFields) (k k2 : String) (v : PVal) :
    (d.set k2 v).get? k = if k2 == k then some v else d.get? k := by
  induction d using pfieldsInd with
  | nil => simp [PFields.set, PFields.get?]
  | cons k0 v0 rest ih =>
    rw [PFields.set]
    by_cases h02 : k0 == k2
    · have h02p : k0 = k2 := by simpa using h02
      subst h02p
      simp only [h02, if_pos]
      rw [PFields.get?, PFields.get?]
      by_cases h0k : k0 == k
      · simp [h0k]
      · simp [h0k]
    · simp only [h02, Bool.false_eq_true, if_false]
      rw [PFields.get?, PFields.get?]
      by_cases h0k : k0 == k
      · have h0kp : k0 = k := by simpa using h0k
        subst h0kp
        have h2k : (k2 == k0) = false := by
          cases hc : k2 == k0
          · rfl
          · have : k2 = k0 := by simpa using hc
            subst this
            simp at h02
        simp [h0k, h2k]
      · simp only [h0k, Bool.false_eq_true, if_false]
        exact ih

theorem applyForceEmbedResult_get_warnings (r : PFields) (eU : Option PList)
    (aU dU : Option PFields) (s3 : PFields) :
    (applyForceEmbedResult r eU aU dU s3).get? "warnings" = r.get? "warnings" := by
  have hs : ("schema" == "warnings") = false := by decide
  have he : ("entities" == "warnings") = false := by decide
  have ha : ("attributes" == "warnings") = false := by decide
  have hd : ("decisions" == "warnings") = false := by decide
  cases eU <;> cases aU <;> cases dU <;>
    simp [applyForceEmbedResult, pffields_get_set, hs, he, ha, hd]

theorem applyForceAddResult_get_warnings (r : PFields) (s : PFields) (es : PList)
    (a : PFields) (dU : Option PFields) :
    (applyForceAddResult r s es a dU).get? "warnings" = r.get? "warnings" := by
  have hs : ("schema" == "warnings") = false := by decide
  have he : ("entities" == "warnings") = false := by decide
  have ha : ("attributes" == "warnings") = false := by decide
  have hd : ("decisions" == "warnings") = false := by decide
  cases dU <;> simp [applyForceAddResult, pffields_get_set, hs, he, ha, hd]

theorem force_embed_success_get_warnings (r : PFields) (schema : PFields)
    (cc pc child : String) (cf pf : PFields) :
    (force_embed_success r schema cc pc child cf pf).get? "warnings" = r.get? "warnings" := by
  rw [force_embed_success]
  exact applyForceEmbedResult_get_warnings _ _ _ _ _

theorem force_add_success_get_warnings (r : PFields) (schema d0 : PFields) (b : Bool)
    (names : List String) :
    (force_add_success r schema d0 b names).get? "warnings" = r.get? "warnings" := by
  rw [force_add_success]
  exact applyForceAddResult_get_warnings _ _ _ _ _

theorem apply_force_embed_get_warnings (text : String) (r : PFields) :
    (apply_force_embed text r).get? "warnings" = r.get? "warnings" := by
  rw [apply_force_embed]
  generalize forceEmbedMatch (strLower text) = m
  generalize r.get? "schema" = o
  repeat' split
  all_goals first
    | rfl
    | exact force_embed_success_get_warnings _ _ _ _ _ _ _

theorem apply_force_add_get_warnings (text : String) (r : PFields) :
    (apply_force_add text r).get? "warnings" = r.get? "warnings" := by
  rw [apply_force_add]
  generalize forceAddNames (strLower text) = ns
  generalize r.get? "schema" = o
  generalize r.getD "decisions" (.dict .nil) = dv
  repeat' split
  all_goals first
    | rfl
    | exact force_add_success_get_warnings _ _ _ _ _

theorem apply_force_embed_noop (text : String) (r : PFields)
    (h : forceEmbedMatch (strLower text) = none) : apply_force_embed text r = r := by
  rw [apply_force_embed]
  split
  · rw [h]
  · rfl

theorem apply_force_add_noop (text : String) (r : PFields)
    (h : forceAddNames (strLower text) = []) : apply_force_add text r = r := by
  rw [apply_force_add]
  split
  · rw [h]
    simp
  · rfl

theorem nr_fallback_complete (d : PFields) :
    ∀ rel c, (rel, c) ∈ normalize_relationships_fallback d →
      looks_like_relation rel = true ∧
        ∃ v, (rel, v) ∈ d.toList ∧ parse_embed_reference v = some c := by
  induction d using pfieldsInd with
  | nil => intro rel c h; simp [normalize_relationships_fallback] at h
  | cons rel0 choice rest ih =>
    intro rel c h
    rw [normalize_relationships_fallback] at h
    by_cases hl : looks_like_relation rel0 = true
    · simp only [hl, if_pos] at h
      cases hc : parse_embed_reference choice with
      | some c0 =>
        rw [hc] at h
        rcases List.mem_cons.mp h with h1 | h1
        · injection h1 with h2 h3
          subst h2
          subst h3
          exact ⟨hl, choice, by rw [PFields.toList]; exact List.mem_cons_self _ _, hc⟩
        · obtain ⟨hlook, v, hmem, hp⟩ := ih rel c h1
          exact ⟨hlook, v, by rw [PFields.toList]; exact List.mem_cons_of_mem _ hmem, hp⟩
      | none =>
        rw [hc] at h
        obtain ⟨hlook, v, hmem, hp⟩ := ih rel c h
        exact ⟨hlook, v, by rw [PFields.toList]; exact List.mem_cons_of_mem _ hmem, hp⟩
    · simp only [Bool.not_eq_true] at hl
      simp only [hl, Bool.false_eq_true, if_false] at h
      obtain ⟨hlook, v, hmem, hp⟩ := ih rel c h
      exact ⟨hlook, v, by rw [PFields.toList]; exact List.mem_cons_of_mem _ hmem, hp⟩

theorem pyDedup_cons (x : PVal) (rest : List PVal) :
    pyDedup (x :: rest) = x :: pyDedupGo rest [x] := by
  rw [pyDedup, pyDedupGo]
  simp [List.any]

/-!
Wrapper predicates for stating claim conclusions over the optional pipeline
results (`none` models a propagated Python exception).
-/

theorem strAppendEmpty (s : String) : s ++ "" = s := by
  cases s with
  | mk data =>
    show String.mk (data ++ []) = String.mk data
    rw [List.append_nil]

/-!
Property lemmas for each pipeline outcome, shared by the claim theorems.
-/

theorem generate_schema_success_props (result : PFields) :
    SchemaHasIds (generate_schema_success result).schema ∧
    RelationshipsNormalized (generate_schema_success result).relationships ∧
    (generate_schema_success result).schemaVersion = 1 ∧
    (generate_schema_success result).previousVersionId = PVal.null := by
  refine ⟨?_, ?_, rfl, rfl⟩
  · show SchemaHasIds (normalize_schema (result.getD "schema" (.dict .nil)))
    exact normalize_schema_hasIds _
  · intro p hp
    exact normalize_relationships_values _ _ p hp

theorem generate_schema_fallback_some_props (it wt e : String)
    (ents rels : List String) (out : SchemaOut)
    (h : generate_schema_fallback it wt e ents rels = some out) :
    SchemaHasIds out.schema ∧ RelationshipsNormalized out.relationships ∧
      out.schemaVersion = 1 ∧ out.previousVersionId = PVal.null ∧
      WarningsContainError out.warnings e := by
  simp only [generate_schema_fallback] at h
  split at h
  · exact Option.noConfusion h
  · injection h with h
    subst h
    dsimp only
    refine ⟨normalize_schema_hasIds _, fun p hp => normalize_relationships_values _ _ p hp,
      rfl, rfl, ?_⟩
    refine ⟨_, rfl, ?_, "Fallback NLP mode (Groq error: ", ")", ?_⟩
    · rw [plist_toList_ofList]
      simp
    · rw [plist_toList_ofList]
      exact List.mem_append_right _ (List.mem_singleton.mpr rfl)

theorem generate_schema_fallback_total (it wt e : String) (ents rels : List String)
    (h : ∀ rel ∈ rels, (rel = "User places Order" → "User" ∈ ents ∧ "Order" ∈ ents) ∧
      (rel = "Order contains Product" → "Order" ∈ ents)) :
    ∃ out, generate_schema_fallback it wt e ents rels = some out := by
  have hc : ∀ rc ∈ (advanced_decision_engine it rels).decisions,
      (rc.1 = "User places Order" → "User" ∈ ents ∧ "Order" ∈ ents) ∧
      (rc.1 = "Order contains Product" → "Order" ∈ ents) := by
    intro rc hrc
    simp only [advanced_decision_engine, List.mem_map] at hrc
    obtain ⟨rel, hrel, hrc⟩ := hrc
    subst hrc
    exact h rel hrel
  obtain ⟨s, hs⟩ := schema_build_some ents (advanced_decision_engine it rels).decisions hc
  simp only [generate_schema_fallback]
  rw [hs]
  exact ⟨_, rfl⟩

theorem generate_schema_some_props (it wt : String) (llm : Except String PFields)
    (ents rels : List String) (out : SchemaOut)
    (h : generate_schema it wt llm ents rels = some out) :
    SchemaHasIds out.schema ∧ RelationshipsNormalized out.relationships ∧
      out.schemaVersion = 1 ∧ out.previousVersionId = PVal.null := by
  cases llm with
  | ok result =>
    simp only [generate_schema] at h
    injection h with h
    subst h
    exact generate_schema_success_props result
  | error e =>
    have h2 : generate_schema_fallback it wt e ents rels = some out := h
    obtain ⟨h1, h2, h3, h4, _⟩ := generate_schema_fallback_some_props it wt e ents rels out h2
    exact ⟨h1, h2, h3, h4⟩

theorem apply_refinement_success_props (base : PFields) (rt : String)
    (r0 old : PFields) (om : Metrics) :
    SchemaHasIds (apply_refinement_success base rt r0 old om).schema ∧
    RelationshipsNormalized (apply_refinement_success base rt r0 old om).relationships ∧
    (apply_refinement_success base rt r0 old om).schemaVersion
      = (build_schema_version (some base)).schemaVersion ∧
    (apply_refinement_success base rt r0 old om).previousVersionId
      = (build_schema_version (some base)).previousVersionId := by
  refine ⟨?_, ?_, rfl, rfl⟩
  · show SchemaHasIds (normalize_schema
      ((apply_force_add rt (apply_force_embed rt r0)).getD "schema" .null))
    exact normalize_schema_hasIds _
  · intro p hp
    exact normalize_relationships_values _ _ p hp

theorem apply_refinement_fallback_some_props (base : PFields) (rt e : String)
    (old : PFields) (om : Metrics) (out : SchemaOut)
    (h : apply_refinement_fallback base rt e old om = some out) :
    SchemaHasIds out.schema ∧ RelationshipsNormalized out.relationships ∧
      out.schemaVersion = (build_schema_version (some base)).schemaVersion ∧
      out.previousVersionId = (build_schema_version (some base)).previousVersionId ∧
      WarningsContainError out.warnings e := by
  simp only [apply_refinement_fallback] at h
  split at h
  · exact Option.noConfusion h
  · split at h
    · injection h with h
      subst h
      refine ⟨normalize_schema_hasIds _, fun p hp => normalize_relationships_values _ _ p hp,
        rfl, rfl, ?_⟩
      refine ⟨_, rfl, ?_, "LLM refinement failed - deterministic fallback: ", "", ?_⟩
      · rw [plist_toList_ofList, pyDedup_cons]
        simp
      · rw [plist_toList_ofList, pyDedup_cons, strAppendEmpty]
        exact List.mem_cons_self _ _
    · exact Option.noConfusion h

theorem apply_refinement_fallback_total (base : PFields) (rt e : String)
    (old : PFields) (om : Metrics)
    (hw : base.get? "warnings" = none ∨
      ∃ xs, base.get? "warnings" = some (.arr xs) ∧ ∀ x ∈ xs.toList, ∃ t, x = PVal.s t) :
    ∃ out, apply_refinement_fallback base rt e old om = some out := by
  have hpres : (apply_force_add rt (apply_force_embed rt base)).get? "warnings"
      = base.get? "warnings" := by
    rw [apply_force_add_get_warnings, apply_force_embed_get_warnings]
  simp only [apply_refinement_fallback]
  rcases hw with hnone | ⟨xs, hxs, hstr⟩
  · have hg : (apply_force_add rt (apply_force_embed rt base)).getD "warnings" (.arr .nil)
        = PVal.arr .nil := by
      rw [PFields.getD, hpres, hnone]
      rfl
    rw [hg]
    exact ⟨_, rfl⟩
  · have hg : (apply_force_add rt (apply_force_embed rt base)).getD "warnings" (.arr .nil)
        = PVal.arr xs := by
      rw [PFields.getD, hpres, hxs]
      rfl
    rw [hg]
    have hall : (PVal.s ("LLM refinement failed - deterministic fallback: " ++ e)
        :: xs.toList).all pvalHashable = true := by
      rw [List.all_eq_true]
      intro x hx
      rcases List.mem_cons.mp hx with h1 | h2
      · subst h1
        rfl
      · obtain ⟨t, ht⟩ := hstr x h2
        subst ht
        rfl
    show ∃ out, (if (PVal.s ("LLM refinement failed - deterministic fallback: " ++ e)
        :: xs.toList).all pvalHashable = true then _ else none) = some out
    rw [hall]
    simp only [if_true]
    exact ⟨_, rfl⟩

theorem apply_refinement_error_eq (base : PFields) (rt wt e : String)
    (l2 : Except String PFields) :
    apply_refinement base rt wt (.error e) l2 = apply_refinement_fallback base rt e
      (normalize_schema (base.getD "schema" (.dict .nil)))
      (schema_metrics (normalize_schema (base.getD "schema" (.dict .nil)))) := rfl

theorem apply_refinement_ok_found (base : PFields) (rt wt : String) (r1 : PFields)
    (l2 : Except String PFields) (hk : r1.hasKey "schema" = true) :
    apply_refinement base rt wt (.ok r1) l2 = some (apply_refinement_success base rt r1
      (normalize_schema (base.getD "schema" (.dict .nil)))
      (schema_metrics (normalize_schema (base.getD "schema" (.dict .nil))))) := by
  simp only [apply_refinement, hk]
  rfl

theorem apply_refinement_retry_error (base : PFields) (rt wt : String) (r1 : PFields)
    (e : String) (hk : r1.hasKey "schema" = false) :
    apply_refinement base rt wt (.ok r1) (.error e) = apply_refinement_fallback base rt e
      (normalize_schema (base.getD "schema" (.dict .nil)))
      (schema_metrics (normalize_schema (base.getD "schema" (.dict .nil)))) := by
  simp only [apply_refinement, hk]
  rfl

theorem apply_refinement_retry_found (base : PFields) (rt wt : String) (r1 r2 : PFields)
    (hk : r1.hasKey "schema" = false) (hk2 : r2.hasKey "schema" = true) :
    apply_refinement base rt wt (.ok r1) (.ok r2) = some (apply_refinement_success base rt r2
      (normalize_schema (base.getD "schema" (.dict .nil)))
      (schema_metrics (normalize_schema (base.getD "schema" (.dict .nil))))) := by
  simp only [apply_refinement, hk, hk2]
  rfl

theorem apply_refinement_retry_missing (base : PFields) (rt wt : String) (r1 r2 : PFields)
    (hk : r1.hasKey "schema" = false) (hk2 : r2.hasKey "schema" = false) :
    apply_refinement base rt wt (.ok r1) (.ok r2) = apply_refinement_fallback base rt
      "LLM response missing schema"
      (normalize_schema (base.getD "schema" (.dict .nil)))
      (schema_metrics (normalize_schema (base.getD "schema" (.dict .nil)))) := by
  simp only [apply_refinement, hk, hk2]
  rfl

theorem apply_refinement_some_props (base : PFields) (rt wt : String)
    (l1 l2 : Except String PFields) (out : SchemaOut)
    (h : apply_refinement base rt wt l1 l2 = some out) :
    SchemaHasIds out.schema ∧ RelationshipsNormalized out.relationships ∧
      out.schemaVersion = (build_schema_version (some base)).schemaVersion ∧
      out.previousVersionId = (build_schema_version (some base)).previousVersionId := by
  cases l1 with
  | error e =>
    rw [apply_refinement_error_eq] at h
    obtain ⟨h1, h2, h3, h4, _⟩ := apply_refinement_fallback_some_props base rt e _ _ out h
    exact ⟨h1, h2, h3, h4⟩
  | ok r1 =>
    cases hk : r1.hasKey "schema" with
    | true =>
      rw [apply_refinement_ok_found base rt wt r1 l2 hk] at h
      injection h with h
      subst h
      exact apply_refinement_success_props base rt r1 _ _
    | false =>
      cases l2 with
      | error e =>
        rw [apply_refinement_retry_error base rt wt r1 e hk] at h
        obtain ⟨h1, h2, h3, h4, _⟩ := apply_refinement_fallback_some_props base rt e _ _ out h
        exact ⟨h1, h2, h3, h4⟩
      | ok r2 =>
        cases hk2 : r2.hasKey "schema" with
        | true =>
          rw [apply_refinement_retry_found base rt wt r1 r2 hk hk2] at h
          injection h with h
          subst h
          exact apply_refinement_success_props base rt r2 _ _
        | false =>
          rw [apply_refinement_retry_missing base rt wt r1 r2 hk hk2] at h
          obtain ⟨h1, h2, h3, h4, _⟩ := apply_refinement_fallback_some_props base rt
            "LLM response missing schema" _ _ out h
          exact ⟨h1, h2, h3, h4⟩

/-!
Decision-engine characterization lemmas (claim C6).
-/

theorem adeChoice_embed_iff (text rel : String) :
    adeChoice text rel = "embed" ↔ (detect_temporal_data rel = false ∧
      (detect_cardinality text rel = "one_to_one" ∨
        detect_cardinality text rel = "one_to_few")) := by
  rw [adeChoice]
  cases ht : detect_temporal_data rel with
  | true =>
    exact ⟨fun habs => absurd (show "reference" = "embed" from habs) (by decide),
      fun hx => absurd hx.1 (by decide)⟩
  | false =>
    cases hc : (detect_cardinality text rel == "one_to_one"
        || detect_cardinality text rel == "one_to_few") with
    | true =>
      simp only [Bool.or_eq_true, beq_iff_eq] at hc
      exact ⟨fun _ => ⟨rfl, hc⟩, fun _ => rfl⟩
    | false =>
      have hc2 : ¬(detect_cardinality text rel = "one_to_one" ∨
          detect_cardinality text rel = "one_to_few") := by
        intro hor
        rcases hor with h1 | h1 <;> simp [h1] at hc
      refine ⟨fun habs => ?_, fun hx => absurd hx.2 hc2⟩
      rw [ite_self] at habs
      exact absurd (show "reference" = "embed" from habs) (by decide)

theorem adeChoice_values (text rel : String) :
    adeChoice text rel = "embed" ∨ adeChoice text rel = "reference" := by
  rw [adeChoice]
  split
  · right; rfl
  · split
    · left; rfl
    · split
      · right; rfl
      · right; rfl

/-!
Concrete inputs used by the counterexamples and witnesses.
-/

/-- C1: when every generative call raises, `generate_schema` and
`apply_refinement` still return a schema object (no exception), every
collection of its schema mapping carries `_id`, every relationship value is
`embed` or `reference`, and the warnings contain the triggering error text.
The hypotheses delimit the model's totality: the extractor never emits the
two special-cased relation labels without their entities, and the stored
base result has the normalized Schema shape (outside it the Python fallback
itself raises, which `Option` models as `none`). -/
theorem C1_fallback_guarantee (it wt rt e1 e2 : String) (ents rels : List String)
    (base : PFields) (llm2 : Except String PFields)
    (hrels : ∀ rel ∈ rels, (rel = "User places Order" → "User" ∈ ents ∧ "Order" ∈ ents) ∧
      (rel = "Order contains Product" → "Order" ∈ ents))
    (hwf : BaseWF base) :
    (∃ out, generate_schema it wt (.error e1) ents rels = some out ∧
      SchemaHasIds out.schema ∧ RelationshipsNormalized out.relationships ∧
      WarningsContainError out.warnings e1) ∧
    (∃ out, apply_refinement base rt wt (.error e2) llm2 = some out ∧
      SchemaHasIds out.schema ∧ RelationshipsNormalized out.relationships ∧
      WarningsContainError out.warnings e2) := by
  constructor
  · obtain ⟨out, hout⟩ := generate_schema_fallback_total it wt e1 ents rels hrels
    obtain ⟨h1, h2, _, _, h5⟩ := generate_schema_fallback_some_props it wt e1 ents rels out hout
    exact ⟨out, hout, h1, h2, h5⟩
  · obtain ⟨out, hout⟩ := apply_refinement_fallback_total base rt e2
      (normalize_schema (base.getD "schema" (.dict .nil)))
      (schema_metrics (normalize_schema (base.getD "schema" (.dict .nil)))) hwf.warnings
    obtain ⟨h1, h2, _, _, h5⟩ := apply_refinement_fallback_some_props base rt e2 _ _ out hout
    rw [← apply_refinement_error_eq base rt wt e2 llm2] at hout
    exact ⟨out, hout, h1, h2, h5⟩

/-- C1 witness: a concrete run with both adapters failing. -/
theorem C1_fallback_guarantee_witness :
    (∃ out, generate_schema "a library app" "general" (.error "boom") ["Book"] []
        = some out ∧
      SchemaHasIds out.schema ∧ RelationshipsNormalized out.relationships ∧
      WarningsContainError out.warnings "boom") ∧
    (∃ out, apply_refinement PFields.nil "tidy it" "general" (.error "crash") (.ok .nil)
        = some out ∧
      SchemaHasIds out.schema ∧ RelationshipsNormalized out.relationships ∧
      WarningsContainError out.warnings "crash") :=
  C1_fallback_guarantee "a library app" "general" "tidy it" "boom" "crash" ["Book"] []
    PFields.nil (.ok .nil)
    (fun rel h => absurd h (List.not_mem_nil rel))
    ⟨Or.inl rfl, Or.inl rfl, Or.inl rfl, Or.inl rfl, Or.inl rfl⟩

/-- C2: a refinement of a schema carrying an integer `schemaVersion` and a
`schemaVersionId` gets version parent + 1 and `previousVersionId` equal to
the parent's `schemaVersionId`; every brand-new `generate_schema` result has
version 1 and a null `previousVersionId`. -/
theorem C2_versioning (base : PFields) (n : Int) (vid : PVal) (it rt wt : String)
    (l1 l2 llm : Except String PFields) (ents rels : List String)
    (hv : base.get? "schemaVersion" = some (.i n))
    (hi : base.get? "schemaVersionId" = some vid) :
    VersionIs (apply_refinement base rt wt l1 l2) (n + 1) vid ∧
    VersionIs (generate_schema it wt llm ents rels) 1 PVal.null := by
  have hb1 : (build_schema_version (some base)).schemaVersion = n + 1 := by
    simp only [build_schema_version, PFields.getD, hv, Option.getD_some, pyToInt]
  have hb2 : (build_schema_version (some base)).previousVersionId = vid := by
    simp only [build_schema_version, PFields.getD, hi, Option.getD_some]
  constructor
  · intro out hout
    rw [Option.mem_def] at hout
    obtain ⟨_, _, h3, h4⟩ := apply_refinement_some_props base rt wt l1 l2 out hout
    exact ⟨h3.trans hb1, h4.trans hb2⟩
  · intro out hout
    rw [Option.mem_def] at hout
    obtain ⟨_, _, h3, h4⟩ := generate_schema_some_props it wt llm ents rels out hout
    exact ⟨h3, h4⟩

/-- C2 witness: parent at version 3 refines to version 4 with its id carried
over. -/
theorem C2_versioning_witness :
    VersionIs (apply_refinement c2_base "adjust" "general"
      (.ok (.cons "schema" (.dict .nil) .nil)) (.ok .nil)) (3 + 1) (.s "ver-3") ∧
    VersionIs (generate_schema "app" "general" (.ok .nil) [] []) 1 PVal.null :=
  C2_versioning c2_base 3 (.s "ver-3") "app" "adjust" "general"
    (.ok (.cons "schema" (.dict .nil) .nil)) (.ok .nil) (.ok .nil) [] [] rfl rfl

/-- C3 counterexample: two schemas with identical path sets but different
field types.  `_diff_schema` compares only paths, `_schemas_equal` compares
canonical values, so the diff is empty while the equality is false — the
claimed equivalence fails in the empty-diff-to-equality direction. -/
theorem C3_diff_equality_counterexample :
    diff_schema c3_old c3_new = ⟨[], []⟩ ∧ schemas_equal c3_old c3_new = false := by
  constructor
  · decide
  · decide

/-- C3 amended: the direction that does hold in the code — on equal schema
mappings the canonical-form equality is true and the diff is empty (the
equality-to-empty-diff direction at its use site, where the compared values
coincide); the converse direction is refuted by the counterexample. -/
theorem C3_diff_equality_refl (s : PFields) :
    schemas_equal s s = true ∧ diff_schema s s = ⟨[], []⟩ :=
  ⟨schemas_equal_refl s, diff_schema_refl s⟩

/-- C4 counterexample: the sentence-level regex rule engine the spec
describes (modelled as `spec_regex_rule_engine`, mirroring the repository's
never-called `_apply_refinement_regex`) removes the `users` collection on
"remove collection named users.", but the code's actual exception path —
which only applies the two force rules — keeps it. -/
theorem C4_regex_fallback_counterexample :
    (spec_regex_rule_engine c4_schema "remove collection named users.").hasKey "users"
      = false ∧
    (apply_refinement c4_base "remove collection named users." "general"
        (.error "boom") (.error "boom")).map (fun o => o.schema.hasKey "users")
      = some true := by
  constructor
  · decide
  · decide

/-- C4 amended: on total adapter failure the fallback applies only the two
force rules (`_apply_force_embed`, `_apply_force_add`); when neither
pattern matches the refinement text, the returned schema is exactly the
renormalized previous schema — every sentence is ignored, with no regex
rule engine involved. -/
theorem C4_regex_fallback_amended (base : PFields) (rt wt e : String)
    (llm2 : Except String PFields)
    (hE : forceEmbedMatch (strLower rt) = none)
    (hA : forceAddNames (strLower rt) = []) :
    SchemaIs (apply_refinement base rt wt (.error e) llm2)
      (normalize_schema (base.getD "schema" (.dict .nil))) := by
  intro out hout
  rw [Option.mem_def, apply_refinement_error_eq] at hout
  simp only [apply_refinement_fallback] at hout
  rw [apply_force_embed_noop rt base hE, apply_force_add_noop rt base hA] at hout
  split at hout
  · exact Option.noConfusion hout
  · split at hout
    · injection hout with hout
      subst hout
      dsimp only
      cases hs : base.get? "schema" with
      | some v => simp only [PFields.getD, hs, Option.getD_some]
      | none =>
        simp only [PFields.getD, hs, Option.getD_none]
        rfl
    · exact Option.noConfusion hout

/-- C4 amended witness: a refinement sentence matching no force pattern
leaves the normalized previous schema unchanged. -/
theorem C4_regex_fallback_amended_witness :
    SchemaIs (apply_refinement c4a_base "please reconsider." "general" (.error "x")
      (.ok .nil)) (normalize_schema (c4a_base.getD "schema" (.dict .nil))) :=
  C4_regex_fallback_amended c4a_base "please reconsider." "general" "x" (.ok .nil)
    (by decide) (by decide)

/-- C5 counterexample: the schema is unchanged by the refinement and the
generative summary opens with neither a "no schema changes" nor a "cannot
implement" statement, yet `apply_refinement` keeps it verbatim —
`_validate_summary` never checks the unchanged-schema direction the spec
requires. -/
theorem C5_summary_honesty_counterexample :
    schemas_equal (normalize_schema (c5_base.getD "schema" (.dict .nil)))
        (normalize_schema (c5_llm.getD "schema" .null)) = true ∧
    strStartsWith (strLower c5_summary) "no schema changes" = false ∧
    strStartsWith (strLower c5_summary) "cannot implement" = false ∧
    (apply_refinement c5_base "polish the naming" "general" (.ok c5_llm) (.ok c5_llm)).map
        (fun o => o.refinementSummary) = some (some c5_summary) := by
  refine ⟨by decide, by decide, by decide, by decide⟩

/-- C5 amended: what `_validate_summary` actually enforces — on an unchanged
schema every string summary of stripped length at least 30 that avoids the
boilerplate substrings passes validation regardless of its opening, and
`apply_refinement` then keeps it verbatim (the deterministic regeneration
fires only when validation fails). -/
theorem C5_summary_honesty_amended (st : String) (base r0 : PFields) (rt wt : String)
    (llm2 : Except String PFields)
    (h30 : ¬ strLen (strTrim st) < 30)
    (hb1 : strContains (strLower st) "applied refinement" = false)
    (hb2 : strContains (strLower st) "implemented " = false)
    (hb3 : strContains (strLower st) "requested changes" = false)
    (hk : r0.hasKey "schema" = true)
    (hraw : r0.get? "refinementSummary" = some (.s st))
    (hE : forceEmbedMatch (strLower rt) = none)
    (hA : forceAddNames (strLower rt) = [])
    (heq : schemas_equal (normalize_schema (base.getD "schema" (.dict .nil)))
        (normalize_schema (r0.getD "schema" .null)) = true) :
    validate_summary (.s st) false = true ∧
    SummaryIs (apply_refinement base rt wt (.ok r0) llm2) st := by
  have hval : validate_summary (.s st) false = true := by
    simp only [validate_summary, hb1, hb2, hb3]
    rw [if_neg h30]
    rfl
  refine ⟨hval, ?_⟩
  intro out hout
  rw [Option.mem_def, apply_refinement_ok_found base rt wt r0 llm2 hk] at hout
  injection hout with hout
  subst hout
  simp only [apply_refinement_success]
  rw [apply_force_embed_noop rt r0 hE, apply_force_add_noop rt r0 hA]
  have hg : r0.getD "refinementSummary" .null = .s st := by
    rw [PFields.getD, hraw]
    rfl
  rw [hg, heq]
  simp only [Bool.not_true]
  rw [hval]
  rfl

/-- C5 amended witness: the concrete generic summary of the counterexample
passes validation and is kept verbatim. -/
theorem C5_summary_honesty_amended_witness :
    validate_summary (.s c5_summary) false = true ∧
    SummaryIs (apply_refinement c5_base "polish" "general" (.ok c5_llm) (.ok c5_llm))
      c5_summary :=
  C5_summary_honesty_amended c5_summary c5_base c5_llm "polish" "general" (.ok c5_llm)
    (by decide) (by decide) (by decide) (by decide) (by decide) rfl (by decide) (by decide)
    (by decide)

/-- C6: the decision engine assigns every relationship label the choice of
`adeChoice`, which is `embed` exactly for non-temporal labels whose detected
cardinality is `one_to_one` or `one_to_few`, and `reference` in every other
case. -/
theorem C6_decision_priority (text rel : String) (rels : List String) (h : rel ∈ rels) :
    List.lookup rel (advanced_decision_engine text rels).decisions
      = some (adeChoice text rel) ∧
    (adeChoice text rel = "embed" ↔ (detect_temporal_data rel = false ∧
      (detect_cardinality text rel = "one_to_one" ∨
        detect_cardinality text rel = "one_to_few"))) ∧
    (adeChoice text rel = "embed" ∨ adeChoice text rel = "reference") := by
  refine ⟨?_, adeChoice_embed_iff text rel, adeChoice_values text rel⟩
  show List.lookup rel (rels.map fun r => (r, adeChoice text r)) = some (adeChoice text rel)
  exact lookup_map_self _ rels rel h

/-- C6 witness: a non-temporal one-to-one relationship is embedded. -/
theorem C6_decision_priority_witness :
    List.lookup "User has Profile" (advanced_decision_engine "each user has one profile"
        ["User has Profile"]).decisions
      = some (adeChoice "each user has one profile" "User has Profile") ∧
    (adeChoice "each user has one profile" "User has Profile" = "embed" ↔
      (detect_temporal_data "User has Profile" = false ∧
        (detect_cardinality "each user has one profile" "User has Profile" = "one_to_one" ∨
          detect_cardinality "each user has one profile" "User has Profile" = "one_to_few"))) ∧
    (adeChoice "each user has one profile" "User has Profile" = "embed" ∨
      adeChoice "each user has one profile" "User has Profile" = "reference") :=
  C6_decision_priority "each user has one profile" "User has Profile" ["User has Profile"]
    (by decide)

theorem inferCollection_mem (c : String) : ∀ (fs : List String) (acc : PFields)
    (p : String × PVal), p ∈ (inferCollection c fs acc).toList →
    p ∈ acc.toList ∨ ∃ f ∈ fs, ∃ v, inferFieldEntry c f = some (p.1, v) ∧ p.2 = PVal.s v := by
  intro fs
  induction fs with
  | nil => intro acc p h; exact Or.inl h
  | cons f0 rest ih =>
    intro acc p h
    rw [inferCollection] at h
    cases he : inferFieldEntry c f0 with
    | none =>
      rw [he] at h
      rcases ih _ p h with h1 | ⟨f2, hf2, v, hv⟩
      · exact Or.inl h1
      · exact Or.inr ⟨f2, List.mem_cons_of_mem _ hf2, v, hv⟩
    | some kv =>
      rw [he] at h
      rcases ih _ p h with h1 | ⟨f2, hf2, v, hv⟩
      · rcases pffields_mem_set acc kv.1 (.s kv.2) p h1 with h2 | h2
        · exact Or.inl h2
        · subst h2
          exact Or.inr ⟨f0, List.mem_cons_self _ _, kv.2, he, rfl⟩
      · exact Or.inr ⟨f2, List.mem_cons_of_mem _ hf2, v, hv⟩

theorem inferGo_mem (sch : PFields) : ∀ (acc : PFields) (p : String × PVal),
    p ∈ (inferGo sch acc).toList →
    p ∈ acc.toList ∨ ∃ c fl f v, (c, PVal.dict fl) ∈ sch.toList ∧ f ∈ fl.keys ∧
      inferFieldEntry c f = some (p.1, v) ∧ p.2 = PVal.s v := by
  induction sch using pfieldsInd with
  | nil => intro acc p h; exact Or.inl h
  | cons c0 v0 rest ih =>
    intro acc p h
    cases v0 with
    | dict fl =>
      rw [inferGo] at h
      rcases ih _ p h with h1 | ⟨c, fl2, f, v, hm, hf, he, hv⟩
      · rcases inferCollection_mem c0 fl.keys acc p h1 with h2 | ⟨f, hf, v, he, hv⟩
        · exact Or.inl h2
        · exact Or.inr ⟨c0, fl, f, v,
            by rw [PFields.toList]; exact List.mem_cons_self _ _, hf, he, hv⟩
      · exact Or.inr ⟨c, fl2, f, v,
          by rw [PFields.toList]; exact List.mem_cons_of_mem _ hm, hf, he, hv⟩
    | s t =>
      rcases ih _ p h with h1 | ⟨c, fl2, f, v, hm, hf, he, hv⟩
      · exact Or.inl h1
      · exact Or.inr ⟨c, fl2, f, v,
          by rw [PFields.toList]; exact List.mem_cons_of_mem _ hm, hf, he, hv⟩
    | i n =>
      rcases ih _ p h with h1 | ⟨c, fl2, f, v, hm, hf, he, hv⟩
      · exact Or.inl h1
      · exact Or.inr ⟨c, fl2, f, v,
          by rw [PFields.toList]; exact List.mem_cons_of_mem _ hm, hf, he, hv⟩
    | b x =>
      rcases ih _ p h with h1 | ⟨c, fl2, f, v, hm, hf, he, hv⟩
      · exact Or.inl h1
      · exact Or.inr ⟨c, fl2, f, v,
          by rw [PFields.toList]; exact List.mem_cons_of_mem _ hm, hf, he, hv⟩
    | null =>
      rcases ih _ p h with h1 | ⟨c, fl2, f, v, hm, hf, he, hv⟩
      · exact Or.inl h1
      · exact Or.inr ⟨c, fl2, f, v,
          by rw [PFields.toList]; exact List.mem_cons_of_mem _ hm, hf, he, hv⟩
    | arr l =>
      rcases ih _ p h with h1 | ⟨c, fl2, f, v, hm, hf, he, hv⟩
      · exact Or.inl h1
      · exact Or.inr ⟨c, fl2, f, v,
          by rw [PFields.toList]; exact List.mem_cons_of_mem _ hm, hf, he, hv⟩

theorem inferCollection_hasKey_mono (c : String) : ∀ (fs : List String) (acc : PFields)
    (k : String), acc.hasKey k = true → (inferCollection c fs acc).hasKey k = true := by
  intro fs
  induction fs with
  | nil => intro acc k h; exact h
  | cons f0 rest ih =>
    intro acc k h
    rw [inferCollection]
    cases he : inferFieldEntry c f0 with
    | none => exact ih _ _ h
    | some kv => exact ih _ _ (pffields_set_hasKey_mono acc k kv.1 (.s kv.2) h)

theorem inferCollection_hasKey_adds (c f : String) (kv : String × String)
    (he : inferFieldEntry c f = some kv) :
    ∀ (fs : List String) (acc : PFields), f ∈ fs →
      (inferCollection c fs acc).hasKey kv.1 = true := by
  intro fs
  induction fs with
  | nil => intro acc hf; cases hf
  | cons f0 rest ih =>
    intro acc hf
    rw [inferCollection]
    rcases List.mem_cons.mp hf with h1 | h1
    · subst h1
      rw [he]
      exact inferCollection_hasKey_mono c rest _ kv.1 (pffields_hasKey_set_self acc kv.1 _)
    · cases he0 : inferFieldEntry c f0 with
      | none => exact ih _ h1
      | some kv0 => exact ih _ h1

theorem inferGo_hasKey_mono (sch : PFields) : ∀ (acc : PFields) (k : String),
    acc.hasKey k = true → (inferGo sch acc).hasKey k = true := by
  induction sch using pfieldsInd with
  | nil => intro acc k h; exact h
  | cons c0 v0 rest ih =>
    intro acc k h
    cases v0 with
    | dict fl =>
      rw [inferGo]
      exact ih _ _ (inferCollection_hasKey_mono c0 fl.keys acc k h)
    | s t => exact ih _ _ h
    | i n => exact ih _ _ h
    | b x => exact ih _ _ h
    | null => exact ih _ _ h
    | arr l => exact ih _ _ h

theorem inferGo_hasKey_adds (sch : PFields) : ∀ (acc : PFields) (c : String)
    (fl : PFields) (f : String) (kv : String × String),
    (c, PVal.dict fl) ∈ sch.toList → f ∈ fl.keys → inferFieldEntry c f = some kv →
    (inferGo sch acc).hasKey kv.1 = true := by
  induction sch using pfieldsInd with
  | nil =>
    intro acc c fl f kv hm
    rw [PFields.toList] at hm
    exact absurd hm (List.not_mem_nil _)
  | cons c0 v0 rest ih =>
    intro acc c fl f kv hm hf he
    rw [PFields.toList] at hm
    rcases List.mem_cons.mp hm with h1 | h1
    · injection h1 with hc hv
      subst hc
      subst hv
      rw [inferGo]
      exact inferGo_hasKey_mono rest _ _ (inferCollection_hasKey_adds c f kv he fl.keys acc hf)
    · cases v0 with
      | dict fl0 => exact ih _ c fl f kv h1 hf he
      | s t => exact ih _ c fl f kv h1 hf he
      | i n => exact ih _ c fl f kv h1 hf he
      | b x => exact ih _ c fl f kv h1 hf he
      | null => exact ih _ c fl f kv h1 hf he
      | arr l => exact ih _ c fl f kv h1 hf he

theorem infer_relationships_sound (schema : PFields) :
    InferSound schema (infer_relationships_from_schema schema) := by
  intro p hp
  rw [infer_relationships_from_schema] at hp
  rcases inferGo_mem schema .nil p hp with h1 | h2
  · rw [PFields.toList] at h1
    exact absurd h1 (List.not_mem_nil _)
  · exact h2

theorem infer_relationships_complete (schema : PFields) : InferComplete schema := by
  intro c fl f hm hf kv he
  rw [infer_relationships_from_schema]
  exact inferGo_hasKey_adds schema .nil c fl f kv hm hf he

/-- C7 counterexample: a schema whose `orders` collection carries a `userId`
foreign-key field.  The structural derivation the spec describes is
implemented by compare_engine's `_infer_relationships_from_schema` and
applied by the comparison pipeline when its normalization is empty, where it
yields an orders-to-users reference here; but `apply_refinement` returns no
relationships — schema_engine's `_normalize_relationships` (the claim's
cited normalizer) never receives the schema, and its empty-result fallback
reads only the `decisions` mapping. -/
theorem C7_structural_derivation_counterexample :
    infer_relationships_from_schema c7_schema
      = .cons "orders -> users" (.s "orders references users (via userId)") .nil ∧
    ce_relationships_final (.dict .nil) (.dict .nil) c7_schema
      = infer_relationships_from_schema c7_schema ∧
    (apply_refinement PFields.nil "restructure" "general" (.ok c7_llm) (.ok c7_llm)).map
        (fun o => o.relationships) = some [] := by
  refine ⟨rfl, rfl, by decide⟩

/-- C7 amended: schema_engine's `_normalize_relationships` — the normalizer
used by `generate_schema` and `apply_refinement` — falls back, when
entry-wise normalization is empty, to the `decisions` mapping alone
(exactly the relation-looking keys with parseable embed/reference values);
it takes no schema input.  The structural derivation from Id-suffixed
fields lives in compare_engine's `_infer_relationships_from_schema`
(sound and complete for the Id/Ids/_id suffix rule), which
`generate_schema_for_comparison` applies exactly when its own
normalization yields an empty mapping. -/
theorem C7_structural_derivation_amended (relationships_obj decisions_obj : PVal)
    (schema : PFields)
    (h : normalize_relationships_main (pyAsDict decisions_obj) relationships_obj = []) :
    (normalize_relationships relationships_obj decisions_obj
       = normalize_relationships_fallback (pyAsDict decisions_obj) ∧
     FallbackProjected (pyAsDict decisions_obj)
       (normalize_relationships relationships_obj decisions_obj)) ∧
    (ce_normalize_relationships relationships_obj decisions_obj = .nil →
      ce_relationships_final relationships_obj decisions_obj schema
        = infer_relationships_from_schema schema) ∧
    InferSound schema (infer_relationships_from_schema schema) ∧
    InferComplete schema := by
  have e : normalize_relationships relationships_obj decisions_obj
      = normalize_relationships_fallback (pyAsDict decisions_obj) := by
    rw [normalize_relationships, normalize_relationships_pick, h]
    rfl
  refine ⟨⟨e, ?_⟩, ?_, infer_relationships_sound schema, infer_relationships_complete schema⟩
  · rw [e]
    intro p hp
    obtain ⟨a, b⟩ := p
    exact nr_fallback_complete (pyAsDict decisions_obj) a b hp
  · intro hce
    rw [ce_relationships_final, hce]
    rfl

/-- C7 amended witness: an empty relationship list with one relation-looking
decision entry, and the structural inference characterized on the concrete
foreign-key schema. -/
theorem C7_structural_derivation_amended_witness :
    (normalize_relationships (.arr .nil) c7w_decisions
       = normalize_relationships_fallback (pyAsDict c7w_decisions) ∧
     FallbackProjected (pyAsDict c7w_decisions)
       (normalize_relationships (.arr .nil) c7w_decisions)) ∧
    (ce_normalize_relationships (.arr .nil) c7w_decisions = .nil →
      ce_relationships_final (.arr .nil) c7w_decisions c7_schema
        = infer_relationships_from_schema c7_schema) ∧
    InferSound c7_schema (infer_relationships_from_schema c7_schema) ∧
    InferComplete c7_schema :=
  C7_structural_derivation_amended (.arr .nil) c7w_decisions c7_schema (by decide)

/-- C8: the schema normalizer gives every collection a dict value containing
the `_id` key, inserting `"_id": "ObjectId"` when the incoming dict lacks
it; consequently every schema returned by `generate_schema` and
`apply_refinement` (success and fallback paths alike) satisfies the
invariant on every collection. -/
theorem C8_id_invariant (v : PVal) (d : PFields) (it wt rt : String)
    (llm l1 l2 : Except String PFields) (ents rels : List String) (base : PFields)
    (hd : d.hasKey "_id" = false) :
    SchemaHasIds (normalize_schema v) ∧
    (normalize_schema_entry (.dict d)).get? "_id" = some (.s "ObjectId") ∧
    OutHasIds (generate_schema it wt llm ents rels) ∧
    OutHasIds (apply_refinement base rt wt l1 l2) := by
  refine ⟨normalize_schema_hasIds v, ?_, ?_, ?_⟩
  · exact normalize_schema_entry_inserts _ (fun fl hf => by
      injection hf with hf
      exact hf ▸ hd)
  · intro out hout
    rw [Option.mem_def] at hout
    exact (generate_schema_some_props it wt llm ents rels out hout).1
  · intro out hout
    rw [Option.mem_def] at hout
    exact (apply_refinement_some_props base rt wt l1 l2 out hout).1

/-- C8 witness: a collection without `_id` gains it through normalization,
and both pipelines preserve the invariant on a concrete run. -/
theorem C8_id_invariant_witness :
    SchemaHasIds (normalize_schema (.s "oops")) ∧
    (normalize_schema_entry (.dict (.cons "name" (.s "string") .nil))).get? "_id"
      = some (.s "ObjectId") ∧
    OutHasIds (generate_schema "app" "general" (.ok .nil) [] []) ∧
    OutHasIds (apply_refinement .nil "tweak" "general" (.ok .nil) (.ok .nil)) :=
  C8_id_invariant (.s "oops") (.cons "name" (.s "string") .nil) "app" "general" "tweak"
    (.ok .nil) (.ok .nil) (.ok .nil) [] [] .nil (by decide)

/-- C9: the schema normalizer is idempotent — renormalizing a normalized
schema yields the identical mapping. -/
theorem C9_normalize_idempotent (s : PVal) :
    normalize_schema (.dict (normalize_schema s)) = normalize_schema s := by
  cases s with
  | dict l =>
    show normalize_schema_fields (normalize_schema_fields l) = normalize_schema_fields l
    exact normalize_schema_fields_idem l
  | s t => rfl
  | i n => rfl
  | b x => rfl
  | null => rfl
  | arr l => rfl

/-- C10: refining a schema whose `schemaVersion` is absent or unparseable
yields version 1 (no exception) with `previousVersionId` taken from
whatever `schemaVersionId` the parent holds (null when absent) — version
metadata indistinguishable from a brand-new schema's. -/
theorem C10_versionless_refinement (base : PFields) (rt wt : String)
    (l1 l2 : Except String PFields)
    (h : base.get? "schemaVersion" = none ∨
      ∃ w, base.get? "schemaVersion" = some w ∧ pyToInt w = none) :
    (build_schema_version (some base)).schemaVersion = 1 ∧
    (build_schema_version (some base)).schemaVersion
      = (build_schema_version none).schemaVersion ∧
    (build_schema_version (some base)).previousVersionId
      = base.getD "schemaVersionId" PVal.null ∧
    VersionIs (apply_refinement base rt wt l1 l2) 1
      (base.getD "schemaVersionId" PVal.null) := by
  have h1 : (build_schema_version (some base)).schemaVersion = 1 := by
    rcases h with hn | ⟨w, hw, hp⟩
    · simp only [build_schema_version, PFields.getD, hn, Option.getD_none, pyToInt]
      decide
    · simp only [build_schema_version, PFields.getD, hw, Option.getD_some, hp]
  have h2 : (build_schema_version (some base)).previousVersionId
      = base.getD "schemaVersionId" PVal.null := rfl
  refine ⟨h1, by rw [h1]; rfl, h2, ?_⟩
  intro out hout
  rw [Option.mem_def] at hout
  obtain ⟨_, _, h3, h4⟩ := apply_refinement_some_props base rt wt l1 l2 out hout
  exact ⟨h3.trans h1, h4.trans h2⟩

/-- C10 witness: a version-less parent refines to version 1. -/
theorem C10_versionless_refinement_witness :
    (build_schema_version (some PFields.nil)).schemaVersion = 1 ∧
    (build_schema_version (some PFields.nil)).schemaVersion
      = (build_schema_version none).schemaVersion ∧
    (build_schema_version (some PFields.nil)).previousVersionId
      = PFields.nil.getD "schemaVersionId" PVal.null ∧
    VersionIs (apply_refinement PFields.nil "retry" "general" (.error "e") (.error "e")) 1
      (PFields.nil.getD "schemaVersionId" PVal.null) :=
  C10_versionless_refinement PFields.nil "retry" "general" (.error "e") (.error "e")
    (Or.inl rfl)
